import Mathlib

/-!
Verification development for the incremental TypeScript compilation engine
(`IncrementalCompiler` in src/unnamed/part_000 and `TypeChecker` in
src/unnamed/part_001).  The JavaScript source is shallowly embedded: the
single-threaded, promise-based pipelines are modelled as explicit
state-passing functions in which every future is settled sequentially
(depth-first), which is observationally equivalent for the set/count
properties proved here; external collaborators (the `typescript` language
service, `fetch`, `resolve`, `convert-source-map`, and the helpers of
`utils.js` such as `isAmbient`/`isTypescript`) are parameters.  Recursions
that the source keeps finite through a growing `seen`/cache collection are
given a fuel argument; a `none` result means the fuel ran out, and the
termination theorems show adequate fuel always yields `some`.
-/

namespace PTS

/-- Association-list lookup by key, modelling JavaScript plain-object property
access `obj[key]` (own properties only). -/
def alookup {κ α : Type} [BEq κ] (l : List (κ × α)) (k : κ) : Option α :=
  (l.find? (fun p => p.1 == k)).map (·.2)

/-- Keep the first occurrence of each key (`ks` collects the keys already
seen), modelling insertion of `key -> value` pairs into a JavaScript object:
a duplicate key does not create a second property, and in this code base a
duplicate key always carries the same value. -/
def dedupKeysAux {α : Type} : List (String × α) → List String → List (String × α)
  | [], _ => []
  | p :: rest, ks =>
    if p.1 ∈ ks then dedupKeysAux rest ks else p :: dedupKeysAux rest (p.1 :: ks)

/-- The key-deduplicated association list backing a JavaScript object built by
repeated `obj[key] = value` assignments. -/
def dedupKeys {α : Type} (l : List (String × α)) : List (String × α) :=
  dedupKeysAux l []

/- ## Ambient rewriting (`IncrementalCompiler.replaceAmbients` / `mapReplace`,
src/unnamed/part_000 lines 76-104) -/

/-- ASCII lowercasing of a character list, modelling `String.prototype.toLowerCase`
and the `i` regular-expression flag on the ASCII module specifiers involved. -/
def lowerL (s : List Char) : List Char := s.map Char.toLower

/-- `escapeRegExp` inside `mapReplace` makes each key match literally, so the
regular expression `new RegExp(keys.map(escapeRegExp).join("|"), "gi")`
matches, at a given position, the first key in key order that is a
case-insensitive prefix of the remaining text. -/
def findKeyCI (keys : List (List Char)) (s : List Char) : Option (List Char) :=
  keys.find? (fun k => (lowerL k).isPrefixOf (lowerL s))

/-- JavaScript stringification of a possibly-missing replacement value:
`mapObj[k]` for an absent key `k` is `undefined`, which `String.replace`
renders as the text `"undefined"`. -/
def jsUndef (o : Option (List Char)) : List Char := o.getD "undefined".data

/-- The scan performed by `mapReplace` (part_000 lines 95-104): at each
position, the first key matching case-insensitively is consumed and replaced
by `mapObj[matched.toLowerCase()]`; other characters are copied.  The fuel is
set to `s.length + 1` by the wrapper, which the scan never exhausts (every
step consumes a character), keeping the recursion structural.  An empty key
(an empty regex alternative) replaces at the position and keeps the
character, as JavaScript does for zero-length matches. -/
def mapReplaceGo (m : List (List Char × List Char)) : Nat → List Char → List Char
  | 0, s => s
  | _ + 1, [] => []
  | fuel + 1, c :: rest =>
    match findKeyCI (m.map (·.1)) (c :: rest) with
    | none => c :: mapReplaceGo m fuel rest
    | some k =>
      let matched := (c :: rest).take k.length
      let repl := jsUndef (alookup m (lowerL matched))
      if k.length = 0 then repl ++ c :: mapReplaceGo m fuel rest
      else repl ++ mapReplaceGo m fuel ((c :: rest).drop k.length)

/-- `IncrementalCompiler.mapReplace(str, mapObj)` (part_000 lines 95-104). -/
def mapReplace (mapObj : List (String × String)) (str : String) : String :=
  ⟨mapReplaceGo (mapObj.map (fun p => (p.1.data, p.2.data))) (str.data.length + 1) str.data⟩

/-- `IncrementalCompiler.replaceAmbients(text, depsMap)` (part_000 lines 76-90):
collect the ambient-classified keys of `depsMap` into `replaceMap`, mapping
each to the resolved file's `tsname` (supplied here as `tsnameOf`); when no
key is ambient, `replaceMap` stays `undefined` and the function returns the
`text` argument itself. -/
def replaceAmbients (isAmbientP : String → Bool) (tsnameOf : String → String)
    (text : String) (depsMap : List (String × String)) : String :=
  let replaceMap := (depsMap.filter (fun p => isAmbientP p.1)).map (fun p => (p.1, tsnameOf p.2))
  if replaceMap.isEmpty then text else mapReplace replaceMap text

/-- The specification's reading of the rewrite (spec section 4.4): every
occurrence of an ambient specifier, matched case-insensitively, is replaced by
the value stored for that specifier.  The scan is the same as `mapReplaceGo`,
but the replacement is the matched entry's own value rather than a lookup of
the lowercased matched text. -/
def specReplaceGo (m : List (List Char × List Char)) : Nat → List Char → List Char
  | 0, s => s
  | _ + 1, [] => []
  | fuel + 1, c :: rest =>
    match m.find? (fun p => (lowerL p.1).isPrefixOf (lowerL (c :: rest))) with
    | none => c :: specReplaceGo m fuel rest
    | some p =>
      if p.1.length = 0 then p.2 ++ c :: specReplaceGo m fuel rest
      else p.2 ++ specReplaceGo m fuel ((c :: rest).drop p.1.length)

/-- Specification-side multi-pattern replacement. -/
def specMapReplace (mapObj : List (String × String)) (str : String) : String :=
  ⟨specReplaceGo (mapObj.map (fun p => (p.1.data, p.2.data))) (str.data.length + 1) str.data⟩

/-- Specification-side ambient rewrite: same ambient classification and
`tsname` targets as `replaceAmbients`, with the spec's replacement semantics. -/
def specReplaceAmbients (isAmbientP : String → Bool) (tsnameOf : String → String)
    (text : String) (depsMap : List (String × String)) : String :=
  let replaceMap := (depsMap.filter (fun p => isAmbientP p.1)).map (fun p => (p.1, tsnameOf p.2))
  if replaceMap.isEmpty then text else specMapReplace replaceMap text

/-- ASCII lowercasing of a string, the string-level counterpart of `lowerL`. -/
def lowerS (s : String) : String := ⟨lowerL s.data⟩

/- ## Source registry (`IncrementalCompiler.load`, src/unnamed/part_000 lines 36-70,
with `getDependencies`, lines 110-131) -/

/-- External collaborators of the incremental compiler's load pipeline:
`fetch`, `ts.preProcessFile` (the raw specifiers of a text, referenced files
first, then imported files, in declaration order), `resolve`,
`isTypescript` (utils.js) and `ts.normalizePath`. -/
structure LoadEnv where
  fetchF : String → Except String String
  preProc : String → List String
  resolveF : String → String → String
  isTS : String → Bool
  normF : String → String

deriving instance DecidableEq for Except

/-- One registry entry (`this._files[filename]`), in its settled state. -/
structure LEntry where
  tsname : String
  text : String
  deps : List String
  /-- Settled state of the `loaded` promise: `.error e` when the fetch was
  rejected with `e`. -/
  loaded : Except String Unit
deriving Repr, DecidableEq

/-- Registry state: the `_files` map, the units handed to
`servicesHost.addFile` (each recorded by its filename; the call passes the
entry's `tsname` and the ambient-rewritten text), and the identities passed to
the `fetch` collaborator, in event order. -/
structure LState where
  files : List (String × LEntry)
  registered : List String
  fetched : List String
deriving Repr, DecidableEq

/-- The empty registry a fresh `IncrementalCompiler` starts with. -/
def initL : LState := ⟨[], [], []⟩

/-- `getDependencies(filename, text)` (part_000 lines 110-131): raw specifiers
from `ts.preProcessFile`, each resolved against `filename`, kept when the
resolved name is a TypeScript file, collected into a JavaScript object
(first occurrence of each raw key wins; duplicate keys carry equal values
because resolution is deterministic). -/
def depsMapOf (env : LoadEnv) (filename text : String) : List (String × String) :=
  dedupKeys (((env.preProc text).map (fun dep => (dep, env.resolveF dep filename))).filter
    (fun p => env.isTS p.2))

/-- The resolved dependency list a successful load records for `f`
(`Object.keys(depsMap).map(key => depsMap[key])`); empty when the fetch of
`f` fails (the chain never reaches `getDependencies`). -/
def ldeps (env : LoadEnv) (f : String) : List String :=
  match env.fetchF f with
  | .ok t => (depsMapOf env f t).map (·.2)
  | .error _ => []

/-- The settled registry entry for `f`: `tsname` is `ts.normalizePath("/" + filename)`
(line 42); on fetch failure the `loaded` promise is rejected and `text`/`deps`
are never populated. -/
def mkLEntry (env : LoadEnv) (f : String) : LEntry :=
  match env.fetchF f with
  | .error e => { tsname := env.normF ("/" ++ f), text := "", deps := [], loaded := .error e }
  | .ok t => { tsname := env.normF ("/" ++ f), text := t,
               deps := (depsMapOf env f t).map (·.2), loaded := .ok () }

/-- Sequential processing of a list of recursive pipeline steps
(`deps.forEach((res) => this.load(res))` and similar loops), threading the
state; `none` propagates fuel exhaustion. -/
def runList {σ : Type} (step : String → σ → Option σ) : List String → σ → Option σ
  | [], st => some st
  | d :: rest, st => (step d st).bind (runList step rest)

/-- `IncrementalCompiler.load(filename)` (part_000 lines 36-70), with every
future settled sequentially: a cached filename returns at once (line 38);
otherwise the entry is created and the fetch issued, and on success the
dependencies are loaded recursively before the file's own registration with
the services host (lines 47-66).  The entry is inserted before the recursive
loads run, which is what breaks dependency cycles. -/
def loadF (env : LoadEnv) : Nat → String → LState → Option LState
  | 0, _, _ => none
  | fuel + 1, f, st =>
    if (alookup st.files f).isSome then some st
    else
      let st1 : LState :=
        { files := st.files ++ [(f, mkLEntry env f)],
          registered := st.registered,
          fetched := st.fetched ++ [f] }
      match env.fetchF f with
      | .error _ => some st1
      | .ok _ =>
        (runList (loadF env fuel) (ldeps env f) st1).map
          (fun st2 => { st2 with registered := st2.registered ++ [f] })

/-- The dependency-following relation of the load pipeline: `b` is one of the
resolved dependencies recorded for `a`. -/
def LStep (env : LoadEnv) (a b : String) : Prop := b ∈ ldeps env a

/-- Reachability from a root through resolved dependencies. -/
def LReach (env : LoadEnv) : String → String → Prop := Relation.ReflTransGen (LStep env)

/- ## Readiness barrier (`IncrementalCompiler.canEmit`, part_000 lines 150-162) -/

/-- How the `canEmit` promise chain can reject. -/
inductive CEErr where
  /-- `this._files[filename]` is `undefined`: the `TypeError` raised inside the
  `.then` callback rejects the chain. -/
  | missingEntry : CEErr
  /-- The unit's `loaded` future was rejected with a fetch error. -/
  | fetch : String → CEErr
deriving Repr, DecidableEq

/-- Sequential settlement of `Promise.all(deps.map((dep) => this.canEmit(dep, seen)))`:
the first rejection rejects the whole, `none` propagates fuel exhaustion. -/
def ceList (step : String → List String → Option (Except CEErr (List String))) :
    List String → List String → Option (Except CEErr (List String))
  | [], seen => some (.ok seen)
  | d :: rest, seen =>
    match step d seen with
    | none => none
    | some (.error e) => some (.error e)
    | some (.ok seen2) => ceList step rest seen2

/-- `IncrementalCompiler.canEmit(filename, seen)` (part_000 lines 150-162):
push `filename` onto the shared `seen` list unconditionally, await the unit's
`loaded` future, filter its dependencies by the current `seen`, and recurse on
the survivors, all sharing the same `seen`.  Returns the final `seen`. -/
def canEmitE (st : LState) : Nat → String → List String → Option (Except CEErr (List String))
  | 0, _, _ => none
  | fuel + 1, f, seen =>
    let seen1 := seen ++ [f]
    match alookup st.files f with
    | none => some (.error .missingEntry)
    | some entry =>
      match entry.loaded with
      | .error e => some (.error (.fetch e))
      | .ok _ => ceList (canEmitE st fuel) (entry.deps.filter (fun d => decide (d ∉ seen1))) seen1

/- ## Readiness barrier of the whole-program checker
(`TypeChecker.canEmit`, src/unnamed/part_001 lines 153-162) -/

/-- `TypeChecker.canEmit(file, seen)` (part_001 lines 153-162): a file already
in `seen` resolves immediately; otherwise it is pushed and all of its
dependencies are awaited recursively with the shared `seen`.  Files are
identified by `sourceName`; `tdeps` reads the `deps` recorded on the file
records. -/
def canEmit2F (tdeps : String → List String) : Nat → String → List String → Option (List String)
  | 0, _, _ => none
  | fuel + 1, f, seen =>
    if f ∈ seen then some seen
    else runList (canEmit2F tdeps fuel) (tdeps f) (seen ++ [f])

/- ## Diagnostics accumulation (`IncrementalCompiler.getAllDiagnostics` /
`getFileDiagnostics`, part_000 lines 207-235) -/

/-- Collaborators of the diagnostics walk: the registry's recorded dependency
lists, `isTypescriptDeclaration` (utils.js), the language service's semantic
and syntactic queries (keyed by `tsname`), and `ts.normalizePath`. -/
structure DiagEnv (D : Type) where
  gdeps : String → List String
  isDeclP : String → Bool
  semD : String → List D
  synD : String → List D
  normF : String → String

/-- The value `getFileDiagnostics` computes on a cache miss (part_000 lines
231-232): semantic diagnostics concatenated with syntactic ones, both for the
unit's `tsname`. -/
def bdiag {D : Type} (env : DiagEnv D) (f : String) : List D :=
  env.semD (env.normF ("/" ++ f)) ++ env.synD (env.normF ("/" ++ f))

/-- Diagnostics-side mutable state: the per-unit memo
(`this._files[filename].diagnostics`) and the units for which the language
service has been queried, in event order. -/
structure DState (D : Type) where
  cache : List (String × List D)
  queried : List String
deriving Repr, DecidableEq

/-- The empty diagnostics state of a fresh session. -/
def initD {D : Type} : DState D := ⟨[], []⟩

/-- `IncrementalCompiler.getFileDiagnostics(filename)` (part_000 lines 229-235):
return the memoized diagnostics, or query the language service once and
memoize. -/
def getFileDiag {D : Type} (env : DiagEnv D) (f : String) (st : DState D) :
    List D × DState D :=
  match alookup st.cache f with
  | some d => (d, st)
  | none => (bdiag env f, { cache := st.cache ++ [(f, bdiag env f)], queried := st.queried ++ [f] })

/-- The dependencies `getAllDiagnostics` recurses into: those classified as
TypeScript declaration files (part_000 lines 216-217). -/
def declDeps {D : Type} (env : DiagEnv D) (f : String) : List String :=
  (env.gdeps f).filter env.isDeclP

/-- The `reduce` of part_000 lines 218-220: accumulate the recursive
diagnostics of a dependency list left to right, threading `seen` and the
memo state. -/
def gadList {D : Type}
    (step : String → List String → DState D → Option (List D × List String × DState D)) :
    List String → List String → DState D → Option (List D × List String × DState D)
  | [], seen, st => some ([], seen, st)
  | d :: rest, seen, st =>
    match step d seen st with
    | none => none
    | some (dd, seen1, st1) =>
      match gadList step rest seen1 st1 with
      | none => none
      | some (dd2, seen2, st2) => some (dd ++ dd2, seen2, st2)

/-- `IncrementalCompiler.getAllDiagnostics(filename, seen)` (part_000 lines
207-223): a filename already in `seen` contributes nothing; otherwise it is
pushed, the declaration dependencies are accumulated recursively, and the
file's own (memoized) diagnostics are prepended on return. -/
def gadF {D : Type} (env : DiagEnv D) :
    Nat → String → List String → DState D → Option (List D × List String × DState D)
  | 0, _, _, _ => none
  | fuel + 1, f, seen, st =>
    if f ∈ seen then some ([], seen, st)
    else
      match gadList (gadF env fuel) (declDeps env f) (seen ++ [f]) st with
      | none => none
      | some (dd, seen2, st2) =>
        let p := getFileDiag env f st2
        some (p.1 ++ dd, seen2, p.2)

/-- One declaration-only dependency edge: `b` is a dependency of `a` that is a
declaration file. -/
def DeclStep {D : Type} (env : DiagEnv D) (a b : String) : Prop := b ∈ declDeps env a

/-- Reachability through declaration-only dependency edges. -/
def DeclReach {D : Type} (env : DiagEnv D) : String → String → Prop :=
  Relation.ReflTransGen (DeclStep env)

/- ## Emit strategy (`IncrementalCompiler.getCompilationResults`, part_000
lines 167-202) -/

/-- The language service's emit output: `emitOutputStatus`
(`ts.EmitReturnStatus`, whose `Succeeded` member is 0) and the emitted files
as (name, text) pairs. -/
structure EmitOutput where
  emitOutputStatus : Nat
  outputFiles : List (String × String)

/-- Collaborators of the emit path: the compiler-options diagnostics, the
emit query, the `tsToJs`/`tsToJsMap` name derivations (utils.js), and the
`convert-source-map` library — `toCommentOf m` is
`convert.fromJSON(m).toComment()` and `spliceMapComment js c` is
`js.replace(convert.mapFileCommentRegex, c)`. -/
structure EmitEnv (D : Type) where
  optDiags : List D
  getEmitOutput : String → EmitOutput
  tsToJs : String → String
  tsToJsMap : String → String
  toCommentOf : String → String
  spliceMapComment : String → String → String

/-- Fatal (thrown) failures of the emit path, distinct from ordinary
diagnostics. -/
inductive EmitFatal where
  /-- `throw new Error("Typescript emit error [" + status + "]")` (line 174). -/
  | badStatus : Nat → EmitFatal
  /-- `outputFiles.filter(...)[0]` is `undefined`: the `TypeError` rejects the
  chain. -/
  | missingOutput : EmitFatal
deriving Repr, DecidableEq

/-- The result object built at part_000 lines 188-201. -/
structure CompResult (D : Type) where
  failure : Bool
  errors : List D
  js : Option String
  map : Option String

/-- `IncrementalCompiler.getCompilationResults(filename)` (part_000 lines
167-202).  The returned `Bool` records whether `services.getEmitOutput` was
invoked. -/
def getCompilationResults {D : Type} (denv : DiagEnv D) (eenv : EmitEnv D) (fuel : Nat)
    (f : String) (st : DState D) :
    Option ((Except EmitFatal (CompResult D)) × Bool × DState D) :=
  match gadF denv fuel f [] st with
  | none => none
  | some (ds, _, st1) =>
    let diagnostics := ds ++ eenv.optDiags
    if diagnostics.length = 0 then
      let tsn := denv.normF ("/" ++ f)
      let output := eenv.getEmitOutput tsn
      if output.emitOutputStatus ≠ 0 then
        some (.error (.badStatus output.emitOutputStatus), true, st1)
      else
        let jsname := eenv.tsToJs tsn
        let mapname := eenv.tsToJsMap tsn
        match (output.outputFiles.filter (fun p => p.1 == jsname)).head?,
              (output.outputFiles.filter (fun p => p.1 == mapname)).head? with
        | some pj, some pm =>
          let jstext := eenv.spliceMapComment pj.2 (eenv.toCommentOf pm.2)
          some (.ok { failure := false, errors := [], js := some jstext, map := some pm.2 },
                true, st1)
        | _, _ => some (.error .missingOutput, true, st1)
    else
      some (.ok { failure := true, errors := diagnostics, js := none, map := none }, false, st1)

/-- `IncrementalCompiler.compile(filename)` (part_000 lines 137-143), after
`loadedDefaultLib` has resolved: await `canEmit(filename)`, then produce
`getCompilationResults(filename)`.  A rejection of `canEmit` rejects the whole
chain. -/
def compileE {D : Type} (denv : DiagEnv D) (eenv : EmitEnv D) (lst : LState) (fuel : Nat)
    (f : String) (st : DState D) :
    Option (Except CEErr ((Except EmitFatal (CompResult D)) × Bool × DState D)) :=
  match canEmitE lst fuel f [] with
  | none => none
  | some (.error e) => some (.error e)
  | some (.ok _) =>
    match getCompilationResults denv eenv fuel f st with
    | none => none
    | some r => some (.ok r)

/- ## Whole-program type checker registry (`TypeChecker.registerFile`,
src/unnamed/part_001 lines 46-94) -/

/-- A type-checker file record.  `sourceState` is the resolved value of the
`source` deferred, `none` while it is pending.  Nothing in part_001 ever calls
`Deferred.reject`, and the fetch chain of declaration files (lines 58-64) has
no rejection handler, so a failed fetch leaves the deferred pending forever. -/
structure TFile where
  sourceName : String
  isDefaultLib : Bool
  sourceState : Option String
deriving Repr, DecidableEq

/-- Type-checker registry state: the `_files` map, the fetch events, and
`this.defaultLibFileName` (which is `undefined` until
`resolveDefaultLibFileName` has completed). -/
structure TState where
  tfiles : List (String × TFile)
  tfetched : List String
  defaultLibFileName : Option String
deriving Repr, DecidableEq

/-- The empty registry of a fresh `TypeChecker`. -/
def initT : TState := ⟨[], [], none⟩

/-- The synchronous step of `TypeChecker.registerFile(sourceName)` (part_001
lines 46-94) together with the settlement of the declaration-file fetch it
starts: a cached name returns its record; otherwise a record is created, is
flagged when the name equals `this.defaultLibFileName`, and — for declaration
files — the checker fetches the source itself, resolving the `source`
deferred on success and dropping the rejection (leaving the deferred pending)
on failure. -/
def registerFileStep (isDeclP : String → Bool) (tfetch : String → Except String String)
    (x : String) (st : TState) : TFile × TState :=
  match alookup st.tfiles x with
  | some f => (f, st)
  | none =>
    let isDef := st.defaultLibFileName == some x
    let fetchNow := isDeclP x
    let srcState : Option String := if fetchNow then (tfetch x).toOption else none
    let f : TFile := { sourceName := x, isDefaultLib := isDef, sourceState := srcState }
    (f, { st with tfiles := st.tfiles ++ [(x, f)],
                  tfetched := if fetchNow then st.tfetched ++ [x] else st.tfetched })

/-- Whether the `source` deferred of a record is still pending; while it is,
`file.loaded = file.source.promise.then(...)` and
`file.errors = file.loaded.then(...)` (part_001 lines 66-88) can never
settle, so `check` neither resolves nor rejects. -/
def sourcePending (f : TFile) : Bool := f.sourceState.isNone

/- ## Whole-program diagnostics (`TypeChecker.getAllDiagnostics`, part_001
lines 182-203) -/

/-- A member of the flattened dependency closure produced by
`accumulateDeps`: its `sourceName` and default-library flag. -/
structure TCDep where
  sourceName : String
  isDefaultLib : Bool
deriving Repr, DecidableEq

/-- Collaborators of the whole-program check: the program's syntactic,
semantic and global diagnostic queries and the synthetic `__HTML_MODULE__`
name. -/
structure TCDiagEnv (D : Type) where
  synD : String → List D
  semD : String → List D
  globalD : List D
  htmlName : String

/-- Accumulator of the `reduce` at part_001 lines 190-202: the diagnostics so
far, the set of units marked `checked` (persisted on the registry records
across requests), and the units passed to the per-file diagnostic queries in
this request. -/
structure TCAcc (D : Type) where
  diags : List D
  checked : List String
  queried : List String

/-- One step of that `reduce`: a unit that is neither the default library nor
already checked contributes its syntactic then semantic diagnostics and is
marked checked; every other unit is skipped. -/
def tcStep {D : Type} (env : TCDiagEnv D) (acc : TCAcc D) (dep : TCDep) : TCAcc D :=
  if !dep.isDefaultLib && !(decide (dep.sourceName ∈ acc.checked)) then
    { diags := acc.diags ++ env.synD dep.sourceName ++ env.semD dep.sourceName,
      checked := acc.checked ++ [dep.sourceName],
      queried := acc.queried ++ [dep.sourceName] }
  else acc

/-- `TypeChecker.getAllDiagnostics(file)` (part_001 lines 182-203) over the
flattened closure `deps` delivered by `accumulateDeps`: the synthetic HTML
placeholder is appended with its `checked` flag already set (modelled by
seeding the checked set with its name), the program is built from every
member's `sourceName`, and the fold starts from the global diagnostics.
Returns the final accumulator and the program's input names. -/
def tcGetAllDiagnostics {D : Type} (env : TCDiagEnv D) (deps : List TCDep)
    (checked : List String) : TCAcc D × List String :=
  let allDeps := deps ++ [{ sourceName := env.htmlName, isDefaultLib := false }]
  (allDeps.foldl (tcStep env) { diags := env.globalD, checked := checked ++ [env.htmlName], queried := [] },
   allDeps.map (·.sourceName))

/-- A whole-program diagnostics collaborator set. -/
def wTCEnv : TCDiagEnv Nat where
  synD := fun s => if s = "m" then [4] else [5]
  semD := fun _ => [6]
  globalD := [0]
  htmlName := "__html__"

/- ## The visited-set measure -/

/-- The number of identities of the finite universe `univF` not yet in `seen`:
the measure that bounds every `seen`-guarded recursion of the engine. -/
def unvisited (univF : Finset String) (seen : List String) : Nat :=
  (univF \ seen.toFinset).card

/-- What one sequentially settled `load(f)` call does to the registry state:
`new` lists the filenames whose entries it created, in creation order. -/
structure LoadPost (env : LoadEnv) (f : String) (st st' : LState) (new : List String) : Prop where
  filesKeys : st'.files.map (·.1) = st.files.map (·.1) ++ new
  nodupNew : new.Nodup
  freshNew : ∀ x ∈ new, alookup st.files x = none
  keepEntry : ∀ g e, alookup st.files g = some e → alookup st'.files g = some e
  entrySpec : ∀ g e, alookup st'.files g = some e →
    alookup st.files g = some e ∨ (g ∈ new ∧ e = mkLEntry env g)
  regSpec : ∃ rnew, st'.registered = st.registered ++ rnew ∧ rnew.Nodup ∧
    ∀ x, x ∈ rnew ↔ (x ∈ new ∧ ∃ t, env.fetchF x = Except.ok t)
  fetchSpec : ∃ fnew, st'.fetched = st.fetched ++ fnew ∧ fnew.Nodup ∧ ∀ x, x ∈ fnew ↔ x ∈ new
  closure : ∀ g ∈ new, ∀ d ∈ ldeps env g, (alookup st'.files d).isSome = true
  selfMem : (alookup st'.files f).isSome = true

/-- The same postcondition for a sequence of pending loads. -/
structure LoadPostL (env : LoadEnv) (l : List String) (st st' : LState) (new : List String) : Prop where
  filesKeys : st'.files.map (·.1) = st.files.map (·.1) ++ new
  nodupNew : new.Nodup
  freshNew : ∀ x ∈ new, alookup st.files x = none
  keepEntry : ∀ g e, alookup st.files g = some e → alookup st'.files g = some e
  entrySpec : ∀ g e, alookup st'.files g = some e →
    alookup st.files g = some e ∨ (g ∈ new ∧ e = mkLEntry env g)
  regSpec : ∃ rnew, st'.registered = st.registered ++ rnew ∧ rnew.Nodup ∧
    ∀ x, x ∈ rnew ↔ (x ∈ new ∧ ∃ t, env.fetchF x = Except.ok t)
  fetchSpec : ∃ fnew, st'.fetched = st.fetched ++ fnew ∧ fnew.Nodup ∧ ∀ x, x ∈ fnew ↔ x ∈ new
  closure : ∀ g ∈ new, ∀ d ∈ ldeps env g, (alookup st'.files d).isSome = true
  allMem : ∀ c ∈ l, (alookup st'.files c).isSome = true

/-- What one `getAllDiagnostics(f, seen)` call does: `new` lists the units it
visited, in visit order; the returned diagnostics are the concatenation of
each visited unit's (memoized) language-service diagnostics; the units newly
queried at the language service are exactly the visited units that were not
yet memoized. -/
structure GPost {D : Type} (env : DiagEnv D) (f : String) (seen : List String) (st : DState D)
    (ds : List D) (seen' : List String) (st' : DState D) (new : List String) : Prop where
  seenEq : seen' = seen ++ new
  nodupNew : new.Nodup
  freshNew : ∀ x ∈ new, x ∉ seen
  dsEq : ds = (new.map (bdiag env)).flatten
  cacheOK : ∀ g d, alookup st'.cache g = some d → d = bdiag env g
  cacheMono : ∀ g, (alookup st.cache g).isSome = true → (alookup st'.cache g).isSome = true
  cacheAdd : ∀ g, (alookup st'.cache g).isSome = true →
    (alookup st.cache g).isSome = true ∨ g ∈ new
  cacheNew : ∀ g ∈ new, (alookup st'.cache g).isSome = true
  qSpec : ∃ qnew, st'.queried = st.queried ++ qnew ∧ qnew.Nodup ∧
    ∀ q, q ∈ qnew ↔ (q ∈ new ∧ ¬(alookup st.cache q).isSome = true)
  sound : ∀ x ∈ new, DeclReach env f x
  closure : ∀ x ∈ new, ∀ c ∈ declDeps env x, c ∈ seen'
  selfMem : f ∈ seen'
  headNew : f ∉ seen → ∃ rest, new = f :: rest

/-- The same postcondition for the `reduce` over a dependency list. -/
structure GPostL {D : Type} (env : DiagEnv D) (l : List String) (seen : List String)
    (st : DState D) (ds : List D) (seen' : List String) (st' : DState D)
    (new : List String) : Prop where
  seenEq : seen' = seen ++ new
  nodupNew : new.Nodup
  freshNew : ∀ x ∈ new, x ∉ seen
  dsEq : ds = (new.map (bdiag env)).flatten
  cacheOK : ∀ g d, alookup st'.cache g = some d → d = bdiag env g
  cacheMono : ∀ g, (alookup st.cache g).isSome = true → (alookup st'.cache g).isSome = true
  cacheAdd : ∀ g, (alookup st'.cache g).isSome = true →
    (alookup st.cache g).isSome = true ∨ g ∈ new
  cacheNew : ∀ g ∈ new, (alookup st'.cache g).isSome = true
  qSpec : ∃ qnew, st'.queried = st.queried ++ qnew ∧ qnew.Nodup ∧
    ∀ q, q ∈ qnew ↔ (q ∈ new ∧ ¬(alookup st.cache q).isSome = true)
  sound : ∀ x ∈ new, ∃ c ∈ l, DeclReach env c x
  closure : ∀ x ∈ new, ∀ c ∈ declDeps env x, c ∈ seen'
  allMem : ∀ c ∈ l, c ∈ seen'

/- ## Concrete fixtures used by witness theorems -/

/-- A two-file collaborator set whose dependency graph is the cycle
`a -> b -> a`. -/
def wLoadEnv : LoadEnv where
  fetchF := fun f => .ok ("T" ++ f)
  preProc := fun t => if t = "Ta" then ["./b"] else if t = "Tb" then ["./a"] else []
  resolveF := fun d _ => if d = "./b" then "b" else "a"
  isTS := fun _ => true
  normF := id

/-- The same cycle as a plain dependency map for the whole-program checker. -/
def wTdeps : String → List String :=
  fun s => if s = "a" then ["b"] else if s = "b" then ["a"] else []

/-- The settled registry produced by loading `a` under `wLoadEnv`. -/
def wSt : LState where
  files := [("a", { tsname := "/a", text := "Ta", deps := ["b"], loaded := Except.ok () }),
            ("b", { tsname := "/b", text := "Tb", deps := ["a"], loaded := Except.ok () })]
  registered := ["b", "a"]
  fetched := ["a", "b"]

/-- A failing fetch collaborator set. -/
def wFailEnv : LoadEnv where
  fetchF := fun _ => .error "404"
  preProc := fun _ => []
  resolveF := fun _ _ => "a"
  isTS := fun _ => true
  normF := id

/-- A diagnostics collaborator set with one declaration dependency
(`a -> lib.d.ts`) and one ordinary dependency (`a -> b`). -/
def wDeclEnv : DiagEnv Nat where
  gdeps := fun s => if s = "a" then ["lib.d.ts", "b"] else []
  isDeclP := fun s => decide (s = "lib.d.ts")
  semD := fun _ => []
  synD := fun s => if s = "/a" then [1] else if s = "/lib.d.ts" then [2] else [3]
  normF := id

/-- A trivial diagnostics collaborator set over `Nat` diagnostics. -/
def wDiagEnv : DiagEnv Nat where
  gdeps := fun _ => []
  isDeclP := fun _ => false
  semD := fun _ => []
  synD := fun _ => []
  normF := id

/-- A trivial emit collaborator set over `Nat` diagnostics. -/
def wEmitEnv : EmitEnv Nat where
  optDiags := []
  getEmitOutput := fun _ => { emitOutputStatus := 0, outputFiles := [] }
  tsToJs := id
  tsToJsMap := id
  toCommentOf := id
  spliceMapComment := fun s _ => s

/-- An emit collaborator set producing one js and one map output. -/
def wEmitEnv2 : EmitEnv Nat where
  optDiags := []
  getEmitOutput := fun _ =>
    { emitOutputStatus := 0, outputFiles := [("jsname", "JS"), ("mapname", "MAP")] }
  tsToJs := fun _ => "jsname"
  tsToJsMap := fun _ => "mapname"
  toCommentOf := fun m => m
  spliceMapComment := fun s _ => s

/- # Theorems -/

/- ## Association-list helpers -/

theorem alookup_cons {α : Type} (k' : String) (v : α) (l : List (String × α)) (k : String) :
    alookup ((k', v) :: l) k = if k' = k then some v else alookup l k := by
  by_cases h : k' = k <;> simp [alookup, List.find?_cons, h]

theorem alookup_append {α : Type} (l₁ l₂ : List (String × α)) (k : String) :
    alookup (l₁ ++ l₂) k = (alookup l₁ k).or (alookup l₂ k) := by
  induction l₁ with
  | nil => simp [alookup]
  | cons p rest ih =>
    rw [List.cons_append, alookup_cons, alookup_cons]
    by_cases h : p.1 = k <;> simp [h, ih]

theorem alookup_isSome_iff {α : Type} (l : List (String × α)) (k : String) :
    (alookup l k).isSome = true ↔ k ∈ l.map (·.1) := by
  induction l with
  | nil => simp [alookup]
  | cons p rest ih =>
    rw [alookup_cons]
    by_cases h : p.1 = k
    · simp [h]
    · simp only [h, if_false, List.map_cons, List.mem_cons, ih]
      constructor
      · exact Or.inr
      · rintro (hk | hk)
        · exact absurd hk.symm h
        · exact hk

/- ## Ambient rewrite: C9 and C4 -/

theorem find?_key_value {α : Type} (P : List Char × α → Bool) (m : List (List Char × α))
    (p : List Char × α) (hm : m.find? P = some p)
    (hkey : ∀ q : List Char × α, q.1 = p.1 → P q = true) :
    alookup m p.1 = some p.2 := by
  induction m with
  | nil => simp at hm
  | cons q rest ih =>
    rw [List.find?_cons] at hm
    by_cases hq : P q
    · simp [hq] at hm
      subst hm
      simp [alookup, List.find?_cons]
    · simp [hq] at hm
      have hne : ¬(q.1 == p.1) = true := by
        intro hcontra
        exact hq (by simpa using hkey q (by simpa using hcontra))
      simp only [alookup, List.find?_cons, hne]
      exact ih hm

theorem lowerL_take (n : Nat) (s : List Char) : lowerL (s.take n) = (lowerL s).take n := by
  simp [lowerL, List.map_take]

theorem lowerL_length (s : List Char) : (lowerL s).length = s.length := by
  simp [lowerL]

theorem lowerL_of_isPrefixOf (k s : List Char)
    (h : (lowerL k).isPrefixOf (lowerL s) = true) :
    lowerL (s.take k.length) = lowerL k := by
  have hpre : lowerL k <+: lowerL s := by
    simpa using h
  have heq := List.prefix_iff_eq_take.mp hpre
  rw [← lowerL_take, lowerL_length] at heq
  exact heq.symm

theorem mapReplaceGo_eq_spec (m : List (List Char × List Char))
    (hlow : ∀ p ∈ m, lowerL p.1 = p.1) :
    ∀ fuel s, mapReplaceGo m fuel s = specReplaceGo m fuel s := by
  intro fuel
  induction fuel with
  | zero => intro s; rfl
  | succ fuel ih =>
    intro s
    match s with
    | [] => rfl
    | c :: rest =>
      have hfind : findKeyCI (m.map (·.1)) (c :: rest) =
          (m.find? (fun p => (lowerL p.1).isPrefixOf (lowerL (c :: rest)))).map (·.1) := by
        simp [findKeyCI, List.find?_map]
        rfl
      cases hm : m.find? (fun p => (lowerL p.1).isPrefixOf (lowerL (c :: rest))) with
      | none =>
        rw [mapReplaceGo, specReplaceGo, hfind, hm]
        simp [ih rest]
      | some p =>
        have hP : ((lowerL p.1).isPrefixOf (lowerL (c :: rest))) = true := by
          simpa using List.find?_some hm
        have hlowp : lowerL p.1 = p.1 := hlow p (List.mem_of_find?_eq_some hm)
        have hmatched : lowerL ((c :: rest).take p.1.length) = p.1 := by
          rw [lowerL_of_isPrefixOf p.1 (c :: rest) hP, hlowp]
        have hlook : alookup m (lowerL ((c :: rest).take p.1.length)) = some p.2 := by
          rw [hmatched]
          exact find?_key_value _ m p hm (fun q hq => by rw [hq]; exact hP)
        rw [mapReplaceGo, specReplaceGo, hfind, hm]
        simp only [Option.map_some]
        by_cases hz : p.1.length = 0
        · rw [hz] at hlook
          simp only [List.take_zero] at hlook
          simp [hz, hlook, jsUndef, ih]
        · simp [hz, hlook, jsUndef, ih]

theorem mapReplace_eq_spec (mapObj : List (String × String))
    (hlow : ∀ p ∈ mapObj, lowerS p.1 = p.1) (str : String) :
    mapReplace mapObj str = specMapReplace mapObj str := by
  unfold mapReplace specMapReplace
  congr 1
  apply mapReplaceGo_eq_spec
  intro p hp
  rcases List.mem_map.mp hp with ⟨q, hq, rfl⟩
  have := hlow q hq
  have : (lowerS q.1).data = q.1.data := by rw [this]
  simpa [lowerS] using this

/-- C4 (counterexample): the claim fails as stated.  The resolution map
classifies the specifier `Foo` as ambient and resolves it to `bar`, yet the
rewrite produces the literal text `undefined` instead of the resolved
identity, because `mapReplace` looks the lowercased matched text `foo` up in
a map whose key is `Foo`. -/
theorem replaceAmbients_uppercase_counterexample :
    replaceAmbients (fun _ => true) id "use Foo" [("Foo", "bar")] = "use undefined" ∧
      specReplaceAmbients (fun _ => true) id "use Foo" [("Foo", "bar")] = "use bar" ∧
      replaceAmbients (fun _ => true) id "use Foo" [("Foo", "bar")] ≠
        specReplaceAmbients (fun _ => true) id "use Foo" [("Foo", "bar")] := by
  refine ⟨by decide, by decide, by decide⟩

/-- C4 (amended): for every source text and resolution map whose
ambient-classified specifiers are all lowercase, the rewrite replaces every
literal occurrence of each ambient specifier — matched case-insensitively,
with regex metacharacters escaped — by the resolved unit's `tsname`, i.e. it
agrees with the specification-side rewrite. -/
theorem replaceAmbients_amended (isAmbientP : String → Bool) (tsnameOf : String → String)
    (text : String) (depsMap : List (String × String))
    (hlow : ∀ p ∈ depsMap, isAmbientP p.1 = true → lowerS p.1 = p.1) :
    replaceAmbients isAmbientP tsnameOf text depsMap =
      specReplaceAmbients isAmbientP tsnameOf text depsMap := by
  unfold replaceAmbients specReplaceAmbients
  by_cases he :
      ((depsMap.filter (fun p => isAmbientP p.1)).map (fun p => (p.1, tsnameOf p.2))).isEmpty
  · simp only [he, if_true]
  · simp only [he, if_false]
    apply mapReplace_eq_spec
    intro p hp
    rcases List.mem_map.mp hp with ⟨q, hq, rfl⟩
    have hmem := List.mem_filter.mp hq
    exact hlow q hmem.1 (by simpa using hmem.2)

/-- C4 (witness for the amended theorem): a lowercase ambient specifier is
rewritten, case-insensitively, to its resolved identity by both sides. -/
theorem replaceAmbients_amended_witness :
    replaceAmbients (fun _ => true) id "use FOO now" [("foo", "bar")] =
        specReplaceAmbients (fun _ => true) id "use FOO now" [("foo", "bar")] ∧
      replaceAmbients (fun _ => true) id "use FOO now" [("foo", "bar")] = "use bar now" :=
  ⟨replaceAmbients_amended _ _ _ _ (by decide), by decide⟩

/-- C9: when no specifier of the resolution map is classified as ambient,
`replaceAmbients` returns the `text` argument itself (the `replaceMap`
accumulator stays `undefined` and the branch at part_000 line 89 returns the
original object), performing no replacement work. -/
theorem replaceAmbients_no_ambient (isAmbientP : String → Bool) (tsnameOf : String → String)
    (text : String) (depsMap : List (String × String))
    (h : ∀ p ∈ depsMap, isAmbientP p.1 = false) :
    replaceAmbients isAmbientP tsnameOf text depsMap = text := by
  unfold replaceAmbients
  have hf : depsMap.filter (fun p => isAmbientP p.1) = [] := by
    rw [List.filter_eq_nil_iff]
    intro p hp
    simp [h p hp]
  simp [hf]

/-- C9 (witness): a map with no ambient-classified specifier leaves the text
untouched. -/
theorem replaceAmbients_no_ambient_witness :
    replaceAmbients (fun _ => false) id "import x from \"./a\";"
        [("./a", "a.ts")] = "import x from \"./a\";" :=
  replaceAmbients_no_ambient _ _ _ _ (by decide)

/- ## Registry helpers -/

theorem dedupKeysAux_subset {α : Type} :
    ∀ (l : List (String × α)) (ks : List String) (p : String × α),
      p ∈ dedupKeysAux l ks → p ∈ l := by
  intro l
  induction l with
  | nil => intro ks p hp; rw [dedupKeysAux] at hp; exact absurd hp (List.not_mem_nil p)
  | cons q rest ih =>
    intro ks p hp
    rw [dedupKeysAux] at hp
    by_cases h : q.1 ∈ ks
    · rw [if_pos h] at hp
      exact List.mem_cons_of_mem _ (ih ks p hp)
    · rw [if_neg h] at hp
      rcases List.mem_cons.mp hp with rfl | hp'
      · exact List.mem_cons_self _ _
      · exact List.mem_cons_of_mem _ (ih _ p hp')

/-- Every resolved dependency recorded for `g` came out of the `resolve`
collaborator applied to some raw specifier of `g`. -/
theorem ldeps_mem {env : LoadEnv} {g d : String} (hd : d ∈ ldeps env g) :
    ∃ raw, d = env.resolveF raw g := by
  unfold ldeps at hd
  cases hf : env.fetchF g with
  | error e => rw [hf] at hd; simp at hd
  | ok t =>
    rw [hf] at hd
    rcases List.mem_map.mp hd with ⟨p, hp, rfl⟩
    rw [depsMapOf, dedupKeys] at hp
    have hp2 := dedupKeysAux_subset _ _ _ hp
    have hp3 := (List.mem_filter.mp hp2).1
    rcases List.mem_map.mp hp3 with ⟨raw, _, rfl⟩
    exact ⟨raw, rfl⟩

theorem unvisited_mono (univF : Finset String) {s₁ s₂ : List String}
    (h : ∀ x ∈ s₁, x ∈ s₂) : unvisited univF s₂ ≤ unvisited univF s₁ := by
  apply Finset.card_le_card
  apply Finset.sdiff_subset_sdiff (le_refl _)
  intro x hx
  exact List.mem_toFinset.mpr (h x (List.mem_toFinset.mp hx))

theorem unvisited_push_lt (univF : Finset String) {s : List String} {c : String}
    (hc : c ∈ univF) (hcs : c ∉ s) :
    unvisited univF (s ++ [c]) < unvisited univF s := by
  unfold unvisited
  have hset : (s ++ [c]).toFinset = insert c s.toFinset := by
    ext x; simp [or_comm]
  rw [hset]
  have herase : univF \ insert c s.toFinset = (univF \ s.toFinset).erase c := by
    ext x
    simp only [Finset.mem_sdiff, Finset.mem_erase, Finset.mem_insert]
    tauto
  rw [herase]
  apply Finset.card_erase_lt_of_mem
  simp only [Finset.mem_sdiff, List.mem_toFinset]
  exact ⟨hc, hcs⟩

theorem alookup_append_some {α : Type} (l₁ l₂ : List (String × α)) (k : String) (e : α)
    (h : alookup l₁ k = some e) : alookup (l₁ ++ l₂) k = some e := by
  rw [alookup_append, h]; rfl

theorem alookup_append_none {α : Type} (l₁ l₂ : List (String × α)) (k : String)
    (h : alookup l₁ k = none) : alookup (l₁ ++ l₂) k = alookup l₂ k := by
  rw [alookup_append, h]; rfl

theorem alookup_singleton {α : Type} (f g : String) (e : α) :
    alookup [(f, e)] g = if f = g then some e else none := by
  rw [alookup_cons]
  by_cases h : f = g <;> simp [h, alookup]

theorem loadPostL_nil (env : LoadEnv) (st : LState) : LoadPostL env [] st st [] where
  filesKeys := (List.append_nil _).symm
  nodupNew := List.nodup_nil
  freshNew := by intro x hx; exact absurd hx (List.not_mem_nil x)
  keepEntry := fun _ _ h => h
  entrySpec := fun _ _ h => Or.inl h
  regSpec := ⟨[], (List.append_nil _).symm, List.nodup_nil, by simp⟩
  fetchSpec := ⟨[], (List.append_nil _).symm, List.nodup_nil, by simp⟩
  closure := by intro g hg; exact absurd hg (List.not_mem_nil g)
  allMem := by intro c hc; exact absurd hc (List.not_mem_nil c)

theorem LoadPost.comp (env : LoadEnv) {d : String} {rest : List String} {st st₁ st' : LState}
    {new₁ new₂ : List String}
    (p₁ : LoadPost env d st st₁ new₁) (p₂ : LoadPostL env rest st₁ st' new₂) :
    LoadPostL env (d :: rest) st st' (new₁ ++ new₂) := by
  have hnew₁mem : ∀ x ∈ new₁, (alookup st₁.files x).isSome = true := by
    intro x hx
    rw [alookup_isSome_iff, p₁.filesKeys]
    exact List.mem_append_right _ hx
  have hdisj : ∀ x ∈ new₂, x ∉ new₁ := by
    intro x hx hxn
    have h1 := hnew₁mem x hxn
    rw [p₂.freshNew x hx] at h1
    exact absurd h1 (by simp)
  have hkeepSome : ∀ g, (alookup st₁.files g).isSome = true →
      (alookup st'.files g).isSome = true := by
    intro g hg
    rcases Option.isSome_iff_exists.mp hg with ⟨e, he⟩
    rw [p₂.keepEntry g e he]; rfl
  refine
    { filesKeys := by rw [p₂.filesKeys, p₁.filesKeys, List.append_assoc]
      nodupNew := by
        rw [List.nodup_append]
        exact ⟨p₁.nodupNew, p₂.nodupNew, fun x hx₁ hx₂ => hdisj x hx₂ hx₁⟩
      freshNew := by
        intro x hx
        rcases List.mem_append.mp hx with hx | hx
        · exact p₁.freshNew x hx
        · cases hs : alookup st.files x with
          | none => rfl
          | some e =>
            have hcontra := p₁.keepEntry x e hs
            rw [p₂.freshNew x hx] at hcontra
            exact absurd hcontra (by simp)
      keepEntry := fun g e h => p₂.keepEntry g e (p₁.keepEntry g e h)
      entrySpec := by
        intro g e h
        rcases p₂.entrySpec g e h with h1 | ⟨hg, he⟩
        · rcases p₁.entrySpec g e h1 with h2 | ⟨hg, he⟩
          · exact Or.inl h2
          · exact Or.inr ⟨List.mem_append_left _ hg, he⟩
        · exact Or.inr ⟨List.mem_append_right _ hg, he⟩
      regSpec := ?_
      fetchSpec := ?_
      closure := by
        intro g hg d hdm
        rcases List.mem_append.mp hg with hg | hg
        · exact hkeepSome d (p₁.closure g hg d hdm)
        · exact p₂.closure g hg d hdm
      allMem := by
        intro c hc
        rcases List.mem_cons.mp hc with rfl | hc
        · exact hkeepSome c p₁.selfMem
        · exact p₂.allMem c hc }
  · rcases p₁.regSpec with ⟨r₁, hr₁, hn₁, hi₁⟩
    rcases p₂.regSpec with ⟨r₂, hr₂, hn₂, hi₂⟩
    refine ⟨r₁ ++ r₂, ?_, ?_, ?_⟩
    · rw [hr₂, hr₁, List.append_assoc]
    · rw [List.nodup_append]
      refine ⟨hn₁, hn₂, ?_⟩
      intro x hx₁ hx₂
      exact hdisj x ((hi₂ x).mp hx₂).1 ((hi₁ x).mp hx₁).1
    · intro x
      rw [List.mem_append, hi₁ x, hi₂ x, List.mem_append]
      tauto
  · rcases p₁.fetchSpec with ⟨f₁, hf₁, hn₁, hi₁⟩
    rcases p₂.fetchSpec with ⟨f₂, hf₂, hn₂, hi₂⟩
    refine ⟨f₁ ++ f₂, ?_, ?_, ?_⟩
    · rw [hf₂, hf₁, List.append_assoc]
    · rw [List.nodup_append]
      refine ⟨hn₁, hn₂, ?_⟩
      intro x hx₁ hx₂
      exact hdisj x ((hi₂ x).mp hx₂) ((hi₁ x).mp hx₁)
    · intro x
      rw [List.mem_append, hi₁ x, hi₂ x, List.mem_append]

theorem runList_loadPost (env : LoadEnv) (step : String → LState → Option LState)
    (hstep : ∀ f st st', step f st = some st' → ∃ new, LoadPost env f st st' new) :
    ∀ (l : List String) (st st' : LState), runList step l st = some st' →
      ∃ new, LoadPostL env l st st' new := by
  intro l
  induction l with
  | nil =>
    intro st st' h
    rw [runList] at h
    injection h with h2
    subst h2
    exact ⟨[], loadPostL_nil env st⟩
  | cons d rest ih =>
    intro st st' h
    rw [runList] at h
    cases hs : step d st with
    | none => rw [hs] at h; exact absurd h (by simp)
    | some st₁ =>
      rw [hs] at h
      simp only [Option.some_bind] at h
      rcases hstep d st st₁ hs with ⟨new₁, p₁⟩
      rcases ih st₁ st' h with ⟨new₂, p₂⟩
      exact ⟨new₁ ++ new₂, LoadPost.comp env p₁ p₂⟩

/-- Every successful (sequentially settled) `load` call satisfies the registry
postcondition: each created entry is the canonical settled entry of its
filename, each created filename is fetched exactly once, each created
filename with a successful fetch is registered exactly once, and the recorded
dependencies of every created entry have entries themselves. -/
theorem loadF_post (env : LoadEnv) :
    ∀ fuel f st st', loadF env fuel f st = some st' → ∃ new, LoadPost env f st st' new := by
  intro fuel
  induction fuel with
  | zero => intro f st st' h; exact absurd h (by simp [loadF])
  | succ fuel ih =>
    intro f st st' h
    rw [loadF] at h
    by_cases hc : (alookup st.files f).isSome
    · rw [if_pos hc] at h
      injection h with h2
      subst h2
      refine ⟨[], ?_⟩
      exact
        { filesKeys := (List.append_nil _).symm
          nodupNew := List.nodup_nil
          freshNew := by intro x hx; exact absurd hx (List.not_mem_nil x)
          keepEntry := fun _ _ h => h
          entrySpec := fun _ _ h => Or.inl h
          regSpec := ⟨[], (List.append_nil _).symm, List.nodup_nil, by simp⟩
          fetchSpec := ⟨[], (List.append_nil _).symm, List.nodup_nil, by simp⟩
          closure := by intro g hg; exact absurd hg (List.not_mem_nil g)
          selfMem := hc }
    · rw [if_neg hc] at h
      have hnone : alookup st.files f = none := Option.not_isSome_iff_eq_none.mp hc
      have hself1 : alookup (st.files ++ [(f, mkLEntry env f)]) f = some (mkLEntry env f) := by
        rw [alookup_append_none _ _ _ hnone, alookup_singleton, if_pos rfl]
      cases hf : env.fetchF f with
      | error e =>
        rw [hf] at h
        injection h with h2
        subst h2
        refine ⟨[f], ?_⟩
        refine
          { filesKeys := by simp
            nodupNew := List.nodup_singleton f
            freshNew := by intro x hx; rw [List.mem_singleton.mp hx]; exact hnone
            keepEntry := fun g e h => alookup_append_some _ _ _ _ h
            entrySpec := ?_
            regSpec := ⟨[], (List.append_nil _).symm, List.nodup_nil, ?_⟩
            fetchSpec := ⟨[f], rfl, List.nodup_singleton f, by simp⟩
            closure := ?_
            selfMem := by rw [hself1]; rfl }
        · intro g e hg
          cases hs : alookup st.files g with
          | some e' =>
            rw [alookup_append_some _ _ _ _ hs] at hg
            injection hg with hg2
            exact Or.inl (congrArg some hg2)
          | none =>
            rw [alookup_append_none _ _ _ hs, alookup_singleton] at hg
            by_cases hfg : f = g
            · subst hfg
              rw [if_pos rfl] at hg
              injection hg with hg2
              exact Or.inr ⟨List.mem_singleton_self f, hg2.symm⟩
            · rw [if_neg hfg] at hg
              exact absurd hg (by simp)
        · intro x
          constructor
          · intro hx; exact absurd hx (List.not_mem_nil x)
          · rintro ⟨hx, t, ht⟩
            rw [List.mem_singleton.mp hx, hf] at ht
            exact absurd ht (by simp)
        · intro g hg d hdm
          rw [List.mem_singleton.mp hg] at hdm
          rw [ldeps, hf] at hdm
          exact absurd hdm (List.not_mem_nil d)
      | ok t =>
        rw [hf] at h
        dsimp only at h
        cases hr : runList (loadF env fuel)
            (ldeps env f)
            { files := st.files ++ [(f, mkLEntry env f)], registered := st.registered,
              fetched := st.fetched ++ [f] } with
        | none => rw [hr] at h; exact absurd h (by simp)
        | some st₂ =>
          rw [hr] at h
          injection h with h2
          rcases runList_loadPost env _ ih _ _ _ hr with ⟨new₂, p₂⟩
          have hfnotnew : f ∉ new₂ := by
            intro hmem
            have hfr := p₂.freshNew f hmem
            rw [hself1] at hfr
            exact absurd hfr (by simp)
          refine ⟨f :: new₂, ?_⟩
          subst h2
          refine
            { filesKeys := by
                have hk := p₂.filesKeys
                simp only [List.map_append, List.map_cons, List.map_nil] at hk
                simp only [hk, List.append_assoc]
                rfl
              nodupNew := List.nodup_cons.mpr ⟨hfnotnew, p₂.nodupNew⟩
              freshNew := ?_
              keepEntry := fun g e hg =>
                p₂.keepEntry g e (alookup_append_some _ _ _ _ hg)
              entrySpec := ?_
              regSpec := ?_
              fetchSpec := ?_
              closure := ?_
              selfMem := by
                rcases Option.isSome_iff_exists.mp (by rw [hself1]; rfl :
                    (alookup (st.files ++ [(f, mkLEntry env f)]) f).isSome = true) with ⟨e, he⟩
                rw [p₂.keepEntry f e he]; rfl }
          · intro x hx
            rcases List.mem_cons.mp hx with rfl | hx
            · exact hnone
            · have hfr := p₂.freshNew x hx
              cases hs : alookup st.files x with
              | none => rfl
              | some e =>
                rw [alookup_append_some _ _ _ _ hs] at hfr
                exact absurd hfr (by simp)
          · intro g e hg
            rcases p₂.entrySpec g e hg with h1 | ⟨hg2, he⟩
            · cases hs : alookup st.files g with
              | some e' =>
                rw [alookup_append_some _ _ _ _ hs] at h1
                injection h1 with h12
                exact Or.inl (congrArg some h12)
              | none =>
                rw [alookup_append_none _ _ _ hs, alookup_singleton] at h1
                by_cases hfg : f = g
                · subst hfg
                  rw [if_pos rfl] at h1
                  injection h1 with h12
                  exact Or.inr ⟨List.mem_cons_self _ _, h12.symm⟩
                · rw [if_neg hfg] at h1
                  exact absurd h1 (by simp)
            · exact Or.inr ⟨List.mem_cons_of_mem _ hg2, he⟩
          · rcases p₂.regSpec with ⟨r₂, hr₂, hn₂, hi₂⟩
            refine ⟨r₂ ++ [f], ?_, ?_, ?_⟩
            · simp only [hr₂]
              rw [List.append_assoc]
            · rw [List.nodup_append]
              refine ⟨hn₂, List.nodup_singleton f, ?_⟩
              intro x hx₂ hxf
              rw [List.mem_singleton.mp hxf] at hx₂
              exact hfnotnew ((hi₂ f).mp hx₂).1
            · intro x
              rw [List.mem_append, hi₂ x, List.mem_singleton, List.mem_cons]
              constructor
              · rintro (⟨hx, hok⟩ | rfl)
                · exact ⟨Or.inr hx, hok⟩
                · exact ⟨Or.inl rfl, ⟨t, hf⟩⟩
              · rintro ⟨rfl | hx, hok⟩
                · exact Or.inr rfl
                · exact Or.inl ⟨hx, hok⟩
          · rcases p₂.fetchSpec with ⟨f₂, hf₂, hn₂, hi₂⟩
            refine ⟨f :: f₂, ?_, ?_, ?_⟩
            · simp only [hf₂]
              rw [List.append_assoc]
              rfl
            · exact List.nodup_cons.mpr ⟨fun hx => hfnotnew ((hi₂ f).mp hx), hn₂⟩
            · intro x
              rw [List.mem_cons, hi₂ x, List.mem_cons]
          · intro g hg d hdm
            rcases List.mem_cons.mp hg with rfl | hg
            · exact p₂.allMem d hdm
            · exact p₂.closure g hg d hdm

theorem loadF_succ_cached (env : LoadEnv) (fuel : Nat) (f : String) (st : LState)
    (hc : (alookup st.files f).isSome = true) : loadF env (fuel + 1) f st = some st := by
  rw [loadF, if_pos hc]

theorem loadF_succ_uncached (env : LoadEnv) (fuel : Nat) (f : String) (st : LState)
    (hc : ¬(alookup st.files f).isSome = true) :
    loadF env (fuel + 1) f st =
      match env.fetchF f with
      | .error _ => some { files := st.files ++ [(f, mkLEntry env f)],
                           registered := st.registered, fetched := st.fetched ++ [f] }
      | .ok _ =>
        (runList (loadF env fuel) (ldeps env f)
          { files := st.files ++ [(f, mkLEntry env f)],
            registered := st.registered, fetched := st.fetched ++ [f] }).map
          (fun st2 => { st2 with registered := st2.registered ++ [f] }) := by
  rw [loadF, if_neg hc]

theorem mkLEntry_deps (env : LoadEnv) (g : String) : (mkLEntry env g).deps = ldeps env g := by
  unfold mkLEntry ldeps
  cases env.fetchF g <;> rfl

/-- Fuel sufficiency for a list of pending loads, given it for single loads. -/
theorem runList_load_total (env : LoadEnv) (univF : Finset String) (fuel : Nat)
    (htot : ∀ f st, f ∈ univF → unvisited univF (st.files.map (·.1)) < fuel →
      ∃ st', loadF env fuel f st = some st') :
    ∀ (l : List String) (st : LState), (∀ c ∈ l, c ∈ univF) →
      unvisited univF (st.files.map (·.1)) < fuel →
      ∃ st', runList (loadF env fuel) l st = some st' := by
  intro l
  induction l with
  | nil => intro st _ _; exact ⟨st, rfl⟩
  | cons c rest ih =>
    intro st hl hu
    rcases htot c st (hl c (List.mem_cons_self _ _)) hu with ⟨st₁, h₁⟩
    rcases loadF_post env fuel c st st₁ h₁ with ⟨new₁, p₁⟩
    have hu₁ : unvisited univF (st₁.files.map (·.1)) < fuel := by
      refine lt_of_le_of_lt (unvisited_mono univF ?_) hu
      intro x hx
      rw [p₁.filesKeys]
      exact List.mem_append_left _ hx
    rcases ih st₁ (fun c' hc' => hl c' (List.mem_cons_of_mem _ hc')) hu₁ with ⟨st', h'⟩
    refine ⟨st', ?_⟩
    rw [runList, h₁, Option.some_bind]
    exact h'

/-- `load` always terminates: enough fuel (one more than the number of not yet
registered identities of the finite universe the resolver maps into) always
yields a settled registry, cycles included. -/
theorem loadF_total (env : LoadEnv) (univF : Finset String)
    (hres : ∀ d fn, env.resolveF d fn ∈ univF) :
    ∀ fuel f st, f ∈ univF → unvisited univF (st.files.map (·.1)) < fuel →
      ∃ st', loadF env fuel f st = some st' := by
  intro fuel
  induction fuel with
  | zero => intro f st _ hu; exact absurd hu (Nat.not_lt_zero _)
  | succ fuel ih =>
    intro f st hfu hu
    by_cases hc : (alookup st.files f).isSome = true
    · exact ⟨st, loadF_succ_cached env fuel f st hc⟩
    · cases hf : env.fetchF f with
      | error e =>
        refine ⟨{ files := st.files ++ [(f, mkLEntry env f)], registered := st.registered,
                  fetched := st.fetched ++ [f] }, ?_⟩
        rw [loadF_succ_uncached env fuel f st hc, hf]
      | ok t =>
        have hfnotmem : f ∉ st.files.map (·.1) := by
          intro hmem
          exact hc ((alookup_isSome_iff _ _).mpr hmem)
        have hu1 : unvisited univF ((st.files.map (·.1)) ++ [f]) < fuel := by
          exact lt_of_lt_of_le (unvisited_push_lt univF hfu hfnotmem) (Nat.lt_succ_iff.mp hu)
        have hdeps : ∀ c ∈ ldeps env f, c ∈ univF := by
          intro c hcm
          rcases ldeps_mem hcm with ⟨raw, rfl⟩
          exact hres raw f
        obtain ⟨st₂, h₂⟩ := runList_load_total env univF fuel ih (ldeps env f)
          { files := st.files ++ [(f, mkLEntry env f)], registered := st.registered,
            fetched := st.fetched ++ [f] }
          hdeps (by simpa using hu1)
        refine ⟨{ st₂ with registered := st₂.registered ++ [f] }, ?_⟩
        rw [loadF_succ_uncached env fuel f st hc, hf, h₂]
        rfl

/- ## Readiness-barrier termination -/

theorem ceList_seen_mono (step : String → List String → Option (Except CEErr (List String)))
    (hstep : ∀ f seen seen', step f seen = some (Except.ok seen') → ∃ ext, seen' = seen ++ ext) :
    ∀ l seen seen', ceList step l seen = some (Except.ok seen') → ∃ ext, seen' = seen ++ ext := by
  intro l
  induction l with
  | nil =>
    intro seen seen' h
    rw [ceList] at h
    injection h with h2
    injection h2 with h3
    exact ⟨[], by rw [← h3, List.append_nil]⟩
  | cons d rest ih =>
    intro seen seen' h
    rw [ceList] at h
    cases hs : step d seen with
    | none => rw [hs] at h; exact absurd h (by simp)
    | some r =>
      rw [hs] at h
      cases r with
      | error e => simp at h
      | ok seen₂ =>
        rcases hstep d seen seen₂ hs with ⟨e₁, he₁⟩
        rcases ih seen₂ seen' h with ⟨e₂, he₂⟩
        exact ⟨e₁ ++ e₂, by rw [he₂, he₁, List.append_assoc]⟩

theorem canEmitE_seen_mono (st : LState) :
    ∀ fuel f seen seen', canEmitE st fuel f seen = some (Except.ok seen') →
      ∃ ext, seen' = seen ++ ext := by
  intro fuel
  induction fuel with
  | zero => intro f seen seen' h; exact absurd h (by simp [canEmitE])
  | succ fuel ih =>
    intro f seen seen' h
    rw [canEmitE] at h
    cases he : alookup st.files f with
    | none => rw [he] at h; simp at h
    | some entry =>
      rw [he] at h
      dsimp only at h
      cases hl : entry.loaded with
      | error e => rw [hl] at h; simp at h
      | ok u =>
        rw [hl] at h
        dsimp only at h
        rcases ceList_seen_mono _ ih _ _ _ h with ⟨ext, hext⟩
        refine ⟨f :: ext, ?_⟩
        rw [hext, List.append_assoc]
        rfl

theorem ceList_total (st : LState) (univF : Finset String) (fuel : Nat) (base : List String)
    (htot : ∀ f seen, f ∈ univF → unvisited univF (seen ++ [f]) < fuel →
      (canEmitE st fuel f seen).isSome = true)
    (hbase : unvisited univF base ≤ fuel) :
    ∀ l seen, (∀ c ∈ l, c ∈ univF ∧ c ∉ base) → (∀ x ∈ base, x ∈ seen) →
      (ceList (canEmitE st fuel) l seen).isSome = true := by
  intro l
  induction l with
  | nil => intro seen _ _; rw [ceList]; rfl
  | cons c rest ih =>
    intro seen hl hsub
    have hcuniv := (hl c (List.mem_cons_self _ _)).1
    have hcbase := (hl c (List.mem_cons_self _ _)).2
    have hmu : unvisited univF (seen ++ [c]) < fuel := by
      have h1 : unvisited univF (seen ++ [c]) ≤ unvisited univF (base ++ [c]) := by
        apply unvisited_mono
        intro x hx
        rcases List.mem_append.mp hx with hx | hx
        · exact List.mem_append_left _ (hsub x hx)
        · exact List.mem_append_right _ hx
      have h2 : unvisited univF (base ++ [c]) < unvisited univF base :=
        unvisited_push_lt univF hcuniv hcbase
      omega
    have hsome := htot c seen hcuniv hmu
    rw [ceList]
    cases hs : canEmitE st fuel c seen with
    | none => rw [hs] at hsome; exact absurd hsome (by simp)
    | some r =>
      cases r with
      | error e => rfl
      | ok seen₂ =>
        dsimp only
        rcases canEmitE_seen_mono st fuel c seen seen₂ hs with ⟨ext, rfl⟩
        exact ih (seen ++ ext) (fun c' hc' => hl c' (List.mem_cons_of_mem _ hc'))
          (fun x hx => List.mem_append_left _ (hsub x hx))

/-- C1's readiness-barrier core for the incremental compiler: `canEmit`
terminates on every registry whose recorded dependencies stay in a finite
universe, cyclic graphs included, because the shared `seen` list only grows
and no identity re-enters the recursion below itself. -/
theorem canEmitE_total (st : LState) (univF : Finset String)
    (hdeps : ∀ g e, alookup st.files g = some e → ∀ d ∈ e.deps, d ∈ univF) :
    ∀ fuel f seen, f ∈ univF → unvisited univF (seen ++ [f]) < fuel →
      (canEmitE st fuel f seen).isSome = true := by
  intro fuel
  induction fuel with
  | zero => intro f seen _ hu; exact absurd hu (Nat.not_lt_zero _)
  | succ fuel ih =>
    intro f seen hf hu
    rw [canEmitE]
    cases he : alookup st.files f with
    | none => rfl
    | some entry =>
      dsimp only
      cases hl : entry.loaded with
      | error e => rfl
      | ok u =>
        apply ceList_total st univF fuel (seen ++ [f]) ih (Nat.lt_succ_iff.mp hu)
        · intro c hc
          have hcf := List.mem_filter.mp hc
          refine ⟨hdeps f entry he c hcf.1, ?_⟩
          simpa using hcf.2
        · intro x hx
          exact hx

theorem runList_seen_mono (step : String → List String → Option (List String))
    (hstep : ∀ f seen seen', step f seen = some seen' → ∃ ext, seen' = seen ++ ext) :
    ∀ l seen seen', runList step l seen = some seen' → ∃ ext, seen' = seen ++ ext := by
  intro l
  induction l with
  | nil =>
    intro seen seen' h
    rw [runList] at h
    injection h with h2
    exact ⟨[], by rw [← h2, List.append_nil]⟩
  | cons d rest ih =>
    intro seen seen' h
    rw [runList] at h
    cases hs : step d seen with
    | none => rw [hs] at h; exact absurd h (by simp)
    | some seen₂ =>
      rw [hs, Option.some_bind] at h
      rcases hstep d seen seen₂ hs with ⟨e₁, he₁⟩
      rcases ih seen₂ seen' h with ⟨e₂, he₂⟩
      exact ⟨e₁ ++ e₂, by rw [he₂, he₁, List.append_assoc]⟩

theorem canEmit2F_seen_mono (tdeps : String → List String) :
    ∀ fuel f seen seen', canEmit2F tdeps fuel f seen = some seen' →
      ∃ ext, seen' = seen ++ ext := by
  intro fuel
  induction fuel with
  | zero => intro f seen seen' h; exact absurd h (by simp [canEmit2F])
  | succ fuel ih =>
    intro f seen seen' h
    rw [canEmit2F] at h
    by_cases hseen : f ∈ seen
    · rw [if_pos hseen] at h
      injection h with h2
      exact ⟨[], by rw [← h2, List.append_nil]⟩
    · rw [if_neg hseen] at h
      rcases runList_seen_mono _ ih _ _ _ h with ⟨ext, hext⟩
      refine ⟨f :: ext, ?_⟩
      rw [hext, List.append_assoc]
      rfl

theorem runList_ce2_total (tdeps : String → List String) (univF : Finset String) (fuel : Nat)
    (base : List String)
    (htot : ∀ f seen, f ∈ univF → unvisited univF seen < fuel →
      (canEmit2F tdeps fuel f seen).isSome = true)
    (hbase : unvisited univF base < fuel) :
    ∀ l seen, (∀ c ∈ l, c ∈ univF) → (∀ x ∈ base, x ∈ seen) →
      (runList (canEmit2F tdeps fuel) l seen).isSome = true := by
  intro l
  induction l with
  | nil => intro seen _ _; rw [runList]; rfl
  | cons c rest ih =>
    intro seen hl hsub
    have hmu : unvisited univF seen < fuel :=
      lt_of_le_of_lt (unvisited_mono univF hsub) hbase
    have hsome := htot c seen (hl c (List.mem_cons_self _ _)) hmu
    rw [runList]
    cases hs : canEmit2F tdeps fuel c seen with
    | none => rw [hs] at hsome; exact absurd hsome (by simp)
    | some seen₂ =>
      rw [Option.some_bind]
      rcases canEmit2F_seen_mono tdeps fuel c seen seen₂ hs with ⟨ext, rfl⟩
      exact ih (seen ++ ext) (fun c' hc' => hl c' (List.mem_cons_of_mem _ hc'))
        (fun x hx => List.mem_append_left _ (hsub x hx))

/-- C1's readiness-barrier core for the whole-program checker: part_001's
`canEmit` terminates for every dependency map into a finite universe. -/
theorem canEmit2F_total (tdeps : String → List String) (univF : Finset String)
    (htd : ∀ g d, d ∈ tdeps g → d ∈ univF) :
    ∀ fuel f seen, f ∈ univF → unvisited univF seen < fuel →
      (canEmit2F tdeps fuel f seen).isSome = true := by
  intro fuel
  induction fuel with
  | zero => intro f seen _ hu; exact absurd hu (Nat.not_lt_zero _)
  | succ fuel ih =>
    intro f seen hf hu
    rw [canEmit2F]
    by_cases hseen : f ∈ seen
    · rw [if_pos hseen]; rfl
    · rw [if_neg hseen]
      have hbase : unvisited univF (seen ++ [f]) < fuel :=
        lt_of_lt_of_le (unvisited_push_lt univF hf hseen) (Nat.lt_succ_iff.mp hu)
      exact runList_ce2_total tdeps univF fuel (seen ++ [f]) ih hbase (tdeps f)
        (seen ++ [f]) (fun c hc => htd f c hc) (fun x hx => hx)

/- ## C1: cycle-safe readiness and single registration -/

/-- C1: for every dependency graph over a finite universe of identities —
cyclic graphs included — the sequentially settled load of the root
terminates, both readiness waits (`IncrementalCompiler.canEmit`, called on
the root with an initially empty, shared `seen` list, and `TypeChecker.canEmit`)
terminate instead of hanging, and every unit reachable from the root is
registered with the services host exactly once. -/
theorem canEmit_terminates_and_registers_once
    (env : LoadEnv) (tdeps : String → List String) (univF : Finset String) (root : String)
    (hroot : root ∈ univF)
    (hres : ∀ d fn, env.resolveF d fn ∈ univF)
    (htd : ∀ g d, d ∈ tdeps g → d ∈ univF)
    (hok : ∀ f, ∃ t, env.fetchF f = Except.ok t) :
    ∃ st', loadF env (univF.card + 1) root initL = some st' ∧
      (canEmitE st' (univF.card + 1) root []).isSome = true ∧
      (canEmit2F tdeps (univF.card + 1) root []).isSome = true ∧
      st'.registered.Nodup ∧
      (∀ v, LReach env root v → st'.registered.count v = 1) := by
  have hzero : unvisited univF ([] : List String) = univF.card := by
    simp [unvisited]
  have hinit : initL.files.map (·.1) = ([] : List String) := rfl
  obtain ⟨st', hload⟩ := loadF_total env univF hres (univF.card + 1) root initL hroot
    (by rw [hinit, hzero]; omega)
  obtain ⟨new, p⟩ := loadF_post env _ root initL st' hload
  have hreachmem : ∀ v, LReach env root v → (alookup st'.files v).isSome = true := by
    intro v hv
    induction hv with
    | refl => exact p.selfMem
    | tail _ hbc ih =>
      rcases Option.isSome_iff_exists.mp ih with ⟨e, he⟩
      rcases p.entrySpec _ _ he with h1 | ⟨hbnew, _⟩
      · exact absurd h1 (by simp [initL, alookup])
      · exact p.closure _ hbnew _ hbc
  refine ⟨st', hload, ?_, ?_, ?_, ?_⟩
  · refine canEmitE_total st' univF ?_ (univF.card + 1) root [] hroot ?_
    · intro g e he d hd
      rcases p.entrySpec g e he with h1 | ⟨_, rfl⟩
      · exact absurd h1 (by simp [initL, alookup])
      · rw [mkLEntry_deps] at hd
        rcases ldeps_mem hd with ⟨raw, rfl⟩
        exact hres raw g
    · have h1 : unvisited univF ([] ++ [root]) ≤ univF.card := by
        rw [← hzero]
        exact unvisited_mono univF (fun x hx => absurd hx (List.not_mem_nil x))
      omega
  · exact canEmit2F_total tdeps univF htd _ root [] hroot (by rw [hzero]; omega)
  · rcases p.regSpec with ⟨rnew, hr, hn, _⟩
    rw [hr]
    simpa [initL] using hn
  · intro v hv
    rcases p.regSpec with ⟨rnew, hr, hn, hi⟩
    have hvmem : v ∈ new := by
      have hsome := hreachmem v hv
      rw [alookup_isSome_iff, p.filesKeys] at hsome
      simpa [initL] using hsome
    have hreg : v ∈ st'.registered := by
      rw [hr]
      exact List.mem_append_right _ ((hi v).mpr ⟨hvmem, hok v⟩)
    have hnodup : st'.registered.Nodup := by
      rw [hr]
      simpa [initL] using hn
    exact List.count_eq_one_of_mem hnodup hreg

/-- C1 (witness): on the concrete cycle `a -> b -> a` the load settles, both
readiness barriers terminate, and `a` and `b` are each registered exactly
once. -/
theorem canEmit_terminates_and_registers_once_witness :
    ∃ st', loadF wLoadEnv ((({"a", "b"} : Finset String)).card + 1) "a" initL = some st' ∧
      (canEmitE st' ((({"a", "b"} : Finset String)).card + 1) "a" []).isSome = true ∧
      (canEmit2F wTdeps ((({"a", "b"} : Finset String)).card + 1) "a" []).isSome = true ∧
      st'.registered.Nodup ∧
      (∀ v, LReach wLoadEnv "a" v → st'.registered.count v = 1) :=
  canEmit_terminates_and_registers_once wLoadEnv wTdeps {"a", "b"} "a" (by decide)
    (by
      intro d fn
      by_cases h : d = "./b" <;> simp [wLoadEnv, h])
    (by
      intro g d hd
      by_cases h1 : g = "a"
      · simp [wTdeps, h1] at hd
        simp [hd]
      · by_cases h2 : g = "b"
        · simp [wTdeps, h1, h2] at hd
          simp [hd]
        · simp [wTdeps, h1, h2] at hd)
    (fun f => ⟨"T" ++ f, rfl⟩)

/- ## C2: get-or-create idempotence -/

theorem registerFileStep_cached (isDeclP : String → Bool)
    (tfetch : String → Except String String) (x : String) (st : TState) (f : TFile)
    (h : alookup st.tfiles x = some f) :
    registerFileStep isDeclP tfetch x st = (f, st) := by
  unfold registerFileStep
  rw [h]

theorem registerFileStep_lookup (isDeclP : String → Bool)
    (tfetch : String → Except String String) (x : String) (st : TState) :
    alookup (registerFileStep isDeclP tfetch x st).2.tfiles x =
      some (registerFileStep isDeclP tfetch x st).1 := by
  unfold registerFileStep
  cases hc : alookup st.tfiles x with
  | some f => exact hc
  | none =>
    dsimp only
    rw [alookup_append_none _ _ _ hc, alookup_singleton, if_pos rfl]

theorem registerFileStep_idem (isDeclP : String → Bool)
    (tfetch : String → Except String String) (x : String) (st : TState) :
    registerFileStep isDeclP tfetch x (registerFileStep isDeclP tfetch x st).2 =
      ((registerFileStep isDeclP tfetch x st).1, (registerFileStep isDeclP tfetch x st).2) :=
  registerFileStep_cached _ _ _ _ _ (registerFileStep_lookup isDeclP tfetch x st)

theorem registerFileStep_fetched_initT (isDeclP : String → Bool)
    (tfetch : String → Except String String) (x : String) :
    (registerFileStep isDeclP tfetch x initT).2.tfetched.count x ≤ 1 := by
  unfold registerFileStep
  by_cases hd : isDeclP x = true <;> simp [initT, alookup, hd]

/-- C2: after a first `load(X)` from the empty registry, a second `load(X)`
returns the same cached entry and leaves the registry untouched, the fetch
collaborator has been invoked at most once per identity, and the type
checker's `registerFile` is idempotent in the same way, fetching at most once
for `X` across both calls. -/
theorem get_or_create_idempotent
    (env : LoadEnv) (x : String) (fuel fuel₂ : Nat) (st₁ : LState)
    (isDeclP : String → Bool) (tfetch : String → Except String String)
    (h1 : loadF env fuel x initL = some st₁) (hf2 : 0 < fuel₂) :
    loadF env fuel₂ x st₁ = some st₁ ∧
      (∀ g, st₁.fetched.count g ≤ 1) ∧
      registerFileStep isDeclP tfetch x (registerFileStep isDeclP tfetch x initT).2 =
        ((registerFileStep isDeclP tfetch x initT).1,
          (registerFileStep isDeclP tfetch x initT).2) ∧
      (registerFileStep isDeclP tfetch x initT).2.tfetched.count x ≤ 1 := by
  obtain ⟨new, p⟩ := loadF_post env fuel x initL st₁ h1
  obtain ⟨k, rfl⟩ := Nat.exists_eq_succ_of_ne_zero (Nat.pos_iff_ne_zero.mp hf2)
  refine ⟨loadF_succ_cached env k x st₁ p.selfMem, ?_,
    registerFileStep_idem _ _ _ _, registerFileStep_fetched_initT _ _ _⟩
  intro g
  rcases p.fetchSpec with ⟨fnew, hf, hn, _⟩
  rw [hf]
  simpa [initL] using List.nodup_iff_count_le_one.mp hn g

/-- C2 (witness): on the concrete cycle, reloading `a` over the settled
registry is the identity, and each identity was fetched once. -/
theorem get_or_create_idempotent_witness :
    loadF wLoadEnv 1 "a" wSt = some wSt ∧
      (∀ g, wSt.fetched.count g ≤ 1) ∧
      registerFileStep (fun _ => true) (fun _ => Except.ok "d") "a"
          (registerFileStep (fun _ => true) (fun _ => Except.ok "d") "a" initT).2 =
        ((registerFileStep (fun _ => true) (fun _ => Except.ok "d") "a" initT).1,
          (registerFileStep (fun _ => true) (fun _ => Except.ok "d") "a" initT).2) ∧
      (registerFileStep (fun _ => true) (fun _ => Except.ok "d") "a" initT).2.tfetched.count "a" ≤ 1 :=
  get_or_create_idempotent wLoadEnv "a" 3 1 wSt (fun _ => true) (fun _ => Except.ok "d")
    (by decide) (by decide)

/- ## C3: fetch-failure behaviour -/

/-- C3 evidence: in the incremental compiler a failed fetch rejects the
unit's `loaded` future, leaves it unregistered, and rejects every later
`canEmit`/`compile` with the fetch error; in the whole-program checker,
however, a failed declaration-file fetch is silently dropped — the `source`
deferred is never rejected (nothing in part_001 calls `Deferred.reject`), so
`file.loaded`, `file.errors`, and therefore `check`, can never settle. -/
theorem fetch_failure_propagation_vs_pending {D : Type} (denv : DiagEnv D) (eenv : EmitEnv D)
    (env : LoadEnv) (root e1 : String) (he : env.fetchF root = Except.error e1)
    (isDeclP : String → Bool) (tfetch : String → Except String String)
    (x e2 : String) (hd : isDeclP x = true) (hx : tfetch x = Except.error e2)
    (st : TState) (hfresh : alookup st.tfiles x = none) :
    ∃ st₁, loadF env 1 root initL = some st₁ ∧
      st₁.registered = [] ∧
      (alookup st₁.files root).map (·.loaded) = some (Except.error e1) ∧
      canEmitE st₁ 1 root [] = some (Except.error (CEErr.fetch e1)) ∧
      compileE denv eenv st₁ 1 root initD = some (Except.error (CEErr.fetch e1)) ∧
      (registerFileStep isDeclP tfetch x st).1.sourceState = none ∧
      sourcePending (registerFileStep isDeclP tfetch x st).1 = true ∧
      x ∈ (registerFileStep isDeclP tfetch x st).2.tfetched := by
  have hml : (mkLEntry env root).loaded = Except.error e1 := by
    unfold mkLEntry
    rw [he]
  have hinitnone : alookup initL.files root = none := rfl
  have hlook : alookup [(root, mkLEntry env root)] root = some (mkLEntry env root) := by
    rw [alookup_singleton, if_pos rfl]
  have hce : canEmitE (⟨[(root, mkLEntry env root)], [], [root]⟩ : LState) 1 root [] =
      some (Except.error (CEErr.fetch e1)) := by
    rw [show (1 : Nat) = 0 + 1 from rfl, canEmitE]
    dsimp only
    rw [hlook]
    dsimp only
    rw [hml]
  refine ⟨(⟨[(root, mkLEntry env root)], [], [root]⟩ : LState),
    ?_, rfl, ?_, hce, ?_, ?_, ?_, ?_⟩
  · rw [show (1 : Nat) = 0 + 1 from rfl,
      loadF_succ_uncached env 0 root initL (by rw [hinitnone]; simp), he]
    rfl
  · dsimp only
    rw [hlook, Option.map_some', hml]
  · unfold compileE
    rw [hce]
  · unfold registerFileStep
    rw [hfresh]
    simp [hd, hx, Except.toOption]
  · unfold sourcePending registerFileStep
    rw [hfresh]
    simp [hd, hx, Except.toOption]
  · unfold registerFileStep
    rw [hfresh]
    simp [hd]

/-- C3 (witness): a concrete failing fetch. -/
theorem fetch_failure_propagation_vs_pending_witness :
    ∃ st₁, loadF wFailEnv 1 "a" initL = some st₁ ∧
      st₁.registered = [] ∧
      (alookup st₁.files "a").map (·.loaded) = some (Except.error "404") ∧
      canEmitE st₁ 1 "a" [] = some (Except.error (CEErr.fetch "404")) ∧
      compileE wDiagEnv wEmitEnv st₁ 1 "a" initD = some (Except.error (CEErr.fetch "404")) ∧
      (registerFileStep (fun _ => true) (fun _ => Except.error "404") "x.d.ts" initT).1.sourceState
          = none ∧
      sourcePending
          (registerFileStep (fun _ => true) (fun _ => Except.error "404") "x.d.ts" initT).1
          = true ∧
      "x.d.ts" ∈ (registerFileStep (fun _ => true) (fun _ => Except.error "404") "x.d.ts"
          initT).2.tfetched :=
  fetch_failure_propagation_vs_pending wDiagEnv wEmitEnv wFailEnv "a" "404" rfl
    (fun _ => true) (fun _ => Except.error "404") "x.d.ts" "404" rfl rfl initT rfl

/- ## Diagnostics accumulation: postconditions -/

theorem gPostL_nil {D : Type} (env : DiagEnv D) (seen : List String) (st : DState D)
    (hC : ∀ g d, alookup st.cache g = some d → d = bdiag env g) :
    GPostL env [] seen st [] seen st [] where
  seenEq := (List.append_nil _).symm
  nodupNew := List.nodup_nil
  freshNew := by intro x hx; exact absurd hx (List.not_mem_nil x)
  dsEq := rfl
  cacheOK := hC
  cacheMono := fun _ h => h
  cacheAdd := fun _ h => Or.inl h
  cacheNew := by intro g hg; exact absurd hg (List.not_mem_nil g)
  qSpec := ⟨[], (List.append_nil _).symm, List.nodup_nil, by simp⟩
  sound := by intro x hx; exact absurd hx (List.not_mem_nil x)
  closure := by intro x hx; exact absurd hx (List.not_mem_nil x)
  allMem := by intro c hc; exact absurd hc (List.not_mem_nil c)

theorem GPost.compL {D : Type} {env : DiagEnv D} {d : String} {rest : List String}
    {seen seen₁ seen₂ : List String} {st st₁ st₂ : DState D} {ds₁ ds₂ : List D}
    {new₁ new₂ : List String}
    (p₁ : GPost env d seen st ds₁ seen₁ st₁ new₁)
    (p₂ : GPostL env rest seen₁ st₁ ds₂ seen₂ st₂ new₂) :
    GPostL env (d :: rest) seen st (ds₁ ++ ds₂) seen₂ st₂ (new₁ ++ new₂) := by
  have hdisj : ∀ x ∈ new₂, x ∉ new₁ := by
    intro x hx hxn
    exact (p₂.freshNew x hx) (by rw [p₁.seenEq]; exact List.mem_append_right _ hxn)
  refine
    { seenEq := by rw [p₂.seenEq, p₁.seenEq, List.append_assoc]
      nodupNew := by
        rw [List.nodup_append]
        exact ⟨p₁.nodupNew, p₂.nodupNew, fun x h1 h2 => hdisj x h2 h1⟩
      freshNew := by
        intro x hx
        rcases List.mem_append.mp hx with hx | hx
        · exact p₁.freshNew x hx
        · intro hxs
          exact (p₂.freshNew x hx) (by rw [p₁.seenEq]; exact List.mem_append_left _ hxs)
      dsEq := by rw [p₁.dsEq, p₂.dsEq, ← List.flatten_append, ← List.map_append]
      cacheOK := p₂.cacheOK
      cacheMono := fun g h => p₂.cacheMono g (p₁.cacheMono g h)
      cacheAdd := by
        intro g h
        rcases p₂.cacheAdd g h with h1 | h1
        · rcases p₁.cacheAdd g h1 with h2 | h2
          · exact Or.inl h2
          · exact Or.inr (List.mem_append_left _ h2)
        · exact Or.inr (List.mem_append_right _ h1)
      cacheNew := by
        intro g hg
        rcases List.mem_append.mp hg with hg | hg
        · exact p₂.cacheMono g (p₁.cacheNew g hg)
        · exact p₂.cacheNew g hg
      qSpec := ?_
      sound := by
        intro x hx
        rcases List.mem_append.mp hx with hx | hx
        · exact ⟨d, List.mem_cons_self _ _, p₁.sound x hx⟩
        · rcases p₂.sound x hx with ⟨c, hc, hr⟩
          exact ⟨c, List.mem_cons_of_mem _ hc, hr⟩
      closure := by
        intro x hx c hc
        rcases List.mem_append.mp hx with hx | hx
        · rw [p₂.seenEq]
          exact List.mem_append_left _ (p₁.closure x hx c hc)
        · exact p₂.closure x hx c hc
      allMem := by
        intro c hc
        rcases List.mem_cons.mp hc with rfl | hc
        · rw [p₂.seenEq]
          exact List.mem_append_left _ p₁.selfMem
        · exact p₂.allMem c hc }
  rcases p₁.qSpec with ⟨q₁, hq₁, hn₁, hi₁⟩
  rcases p₂.qSpec with ⟨q₂, hq₂, hn₂, hi₂⟩
  refine ⟨q₁ ++ q₂, ?_, ?_, ?_⟩
  · rw [hq₂, hq₁, List.append_assoc]
  · rw [List.nodup_append]
    refine ⟨hn₁, hn₂, ?_⟩
    intro x h1 h2
    exact ((hi₂ x).mp h2).2 (p₁.cacheNew x ((hi₁ x).mp h1).1)
  · intro q
    rw [List.mem_append, hi₁ q, hi₂ q, List.mem_append]
    constructor
    · rintro (⟨h1, h2⟩ | ⟨h1, h2⟩)
      · exact ⟨Or.inl h1, h2⟩
      · refine ⟨Or.inr h1, ?_⟩
        intro hsome
        exact h2 (p₁.cacheMono q hsome)
    · rintro ⟨h1 | h1, h2⟩
      · exact Or.inl ⟨h1, h2⟩
      · refine Or.inr ⟨h1, ?_⟩
        intro hsome
        rcases p₁.cacheAdd q hsome with h3 | h3
        · exact h2 h3
        · exact hdisj q h1 h3

theorem gadList_post {D : Type} (env : DiagEnv D)
    (step : String → List String → DState D → Option (List D × List String × DState D))
    (hstep : ∀ f seen st ds seen' st',
      (∀ g d, alookup st.cache g = some d → d = bdiag env g) →
      step f seen st = some (ds, seen', st') →
      ∃ new, GPost env f seen st ds seen' st' new) :
    ∀ l seen st ds seen' st',
      (∀ g d, alookup st.cache g = some d → d = bdiag env g) →
      gadList step l seen st = some (ds, seen', st') →
      ∃ new, GPostL env l seen st ds seen' st' new := by
  intro l
  induction l with
  | nil =>
    intro seen st ds seen' st' hC h
    rw [gadList] at h
    have h2 := Option.some.inj h
    have h3 : ([] : List D) = ds := congrArg (·.1) h2
    have h4 : seen = seen' := congrArg (fun p => p.2.1) h2
    have h5 : st = st' := congrArg (fun p => p.2.2) h2
    subst h3; subst h4; subst h5
    exact ⟨[], gPostL_nil env seen st hC⟩
  | cons d rest ih =>
    intro seen st ds seen' st' hC h
    rw [gadList] at h
    cases hs : step d seen st with
    | none => rw [hs] at h; exact absurd h (by simp)
    | some r =>
      obtain ⟨dd, seen₁, st₁⟩ := r
      rw [hs] at h
      dsimp only at h
      cases hr : gadList step rest seen₁ st₁ with
      | none => rw [hr] at h; exact absurd h (by simp)
      | some r₂ =>
        obtain ⟨dd₂, seen₂, st₂⟩ := r₂
        rw [hr] at h
        dsimp only at h
        have h2 := Option.some.inj h
        have h3 : dd ++ dd₂ = ds := congrArg (·.1) h2
        have h4 : seen₂ = seen' := congrArg (fun p => p.2.1) h2
        have h5 : st₂ = st' := congrArg (fun p => p.2.2) h2
        subst h3; subst h4; subst h5
        obtain ⟨new₁, p₁⟩ := hstep d seen st dd seen₁ st₁ hC hs
        obtain ⟨new₂, p₂⟩ := ih seen₁ st₁ dd₂ seen₂ st₂ p₁.cacheOK hr
        exact ⟨new₁ ++ new₂, GPost.compL p₁ p₂⟩

/-- The central postcondition of `IncrementalCompiler.getAllDiagnostics`. -/
theorem gadF_post {D : Type} (env : DiagEnv D) :
    ∀ fuel f seen st ds seen' st',
      (∀ g d, alookup st.cache g = some d → d = bdiag env g) →
      gadF env fuel f seen st = some (ds, seen', st') →
      ∃ new, GPost env f seen st ds seen' st' new := by
  intro fuel
  induction fuel with
  | zero => intro f seen st ds seen' st' _ h; exact absurd h (by simp [gadF])
  | succ fuel ih =>
    intro f seen st ds seen' st' hC h
    rw [gadF] at h
    by_cases hseen : f ∈ seen
    · rw [if_pos hseen] at h
      have h2 := Option.some.inj h
      have h3 : ([] : List D) = ds := congrArg (·.1) h2
      have h4 : seen = seen' := congrArg (fun p => p.2.1) h2
      have h5 : st = st' := congrArg (fun p => p.2.2) h2
      subst h3; subst h4; subst h5
      refine ⟨[], ?_⟩
      exact
        { seenEq := (List.append_nil _).symm
          nodupNew := List.nodup_nil
          freshNew := by intro x hx; exact absurd hx (List.not_mem_nil x)
          dsEq := rfl
          cacheOK := hC
          cacheMono := fun _ h => h
          cacheAdd := fun _ h => Or.inl h
          cacheNew := by intro g hg; exact absurd hg (List.not_mem_nil g)
          qSpec := ⟨[], (List.append_nil _).symm, List.nodup_nil, by simp⟩
          sound := by intro x hx; exact absurd hx (List.not_mem_nil x)
          closure := by intro x hx; exact absurd hx (List.not_mem_nil x)
          selfMem := hseen
          headNew := fun hns => absurd hseen hns }
    · rw [if_neg hseen] at h
      cases hr : gadList (gadF env fuel) (declDeps env f) (seen ++ [f]) st with
      | none => rw [hr] at h; exact absurd h (by simp)
      | some r =>
        obtain ⟨dd, seen₂, st₂⟩ := r
        rw [hr] at h
        dsimp only at h
        obtain ⟨new_l, pl⟩ := gadList_post env (gadF env fuel) (ih) (declDeps env f)
          (seen ++ [f]) st dd seen₂ st₂ hC hr
        have hfin1 : f ∈ seen ++ [f] := List.mem_append_right _ (List.mem_singleton_self f)
        have hfnot : f ∉ new_l := fun hm => (pl.freshNew f hm) hfin1
        have hseenEq : seen₂ = seen ++ (f :: new_l) := by
          rw [pl.seenEq, List.append_assoc]
          rfl
        have hselfMem : f ∈ seen₂ := by
          rw [pl.seenEq]
          exact List.mem_append_left _ hfin1
        unfold getFileDiag at h
        cases hcf : alookup st₂.cache f with
        | some dval =>
          rw [hcf] at h
          dsimp only at h
          have h2 := Option.some.inj h
          have h3 : dval ++ dd = ds := congrArg (·.1) h2
          have h4 : seen₂ = seen' := congrArg (fun p => p.2.1) h2
          have h5 : st₂ = st' := congrArg (fun p => p.2.2) h2
          subst h3; subst h4; subst h5
          have hdval : dval = bdiag env f := pl.cacheOK f dval hcf
          have hcachedf : (alookup st.cache f).isSome = true := by
            rcases pl.cacheAdd f (by rw [hcf]; rfl) with h6 | h6
            · exact h6
            · exact absurd h6 hfnot
          refine ⟨f :: new_l, ?_⟩
          refine
            { seenEq := hseenEq
              nodupNew := List.nodup_cons.mpr ⟨hfnot, pl.nodupNew⟩
              freshNew := ?_
              dsEq := by rw [hdval, pl.dsEq]; rfl
              cacheOK := pl.cacheOK
              cacheMono := pl.cacheMono
              cacheAdd := by
                intro g hg
                rcases pl.cacheAdd g hg with h6 | h6
                · exact Or.inl h6
                · exact Or.inr (List.mem_cons_of_mem _ h6)
              cacheNew := ?_
              qSpec := ?_
              sound := ?_
              closure := ?_
              selfMem := hselfMem
              headNew := fun _ => ⟨new_l, rfl⟩ }
          · intro x hx
            rcases List.mem_cons.mp hx with rfl | hx
            · exact hseen
            · intro hxs
              exact (pl.freshNew x hx) (List.mem_append_left _ hxs)
          · intro g hg
            rcases List.mem_cons.mp hg with rfl | hg
            · rw [hcf]; rfl
            · exact pl.cacheNew g hg
          · rcases pl.qSpec with ⟨qnew, hq, hn, hi⟩
            refine ⟨qnew, hq, hn, ?_⟩
            intro q
            rw [hi q, List.mem_cons]
            constructor
            · rintro ⟨h6, h7⟩
              exact ⟨Or.inr h6, h7⟩
            · rintro ⟨rfl | h6, h7⟩
              · exact absurd hcachedf h7
              · exact ⟨h6, h7⟩
          · intro x hx
            rcases List.mem_cons.mp hx with rfl | hx
            · exact Relation.ReflTransGen.refl
            · rcases pl.sound x hx with ⟨c, hc, hreach⟩
              exact Relation.ReflTransGen.head hc hreach
          · intro x hx c hc
            rcases List.mem_cons.mp hx with rfl | hx
            · exact pl.allMem c hc
            · exact pl.closure x hx c hc
        | none =>
          rw [hcf] at h
          dsimp only at h
          have h2 := Option.some.inj h
          have h3 : bdiag env f ++ dd = ds := congrArg (·.1) h2
          have h4 : seen₂ = seen' := congrArg (fun p => p.2.1) h2
          have h5 : (⟨st₂.cache ++ [(f, bdiag env f)], st₂.queried ++ [f]⟩ : DState D) = st' :=
            congrArg (fun p => p.2.2) h2
          subst h3; subst h4; subst h5
          have hnotcachedf : ¬(alookup st.cache f).isSome = true := by
            intro h6
            have h7 := pl.cacheMono f h6
            rw [hcf] at h7
            exact absurd h7 (by simp)
          refine ⟨f :: new_l, ?_⟩
          refine
            { seenEq := hseenEq
              nodupNew := List.nodup_cons.mpr ⟨hfnot, pl.nodupNew⟩
              freshNew := ?_
              dsEq := by rw [pl.dsEq]; rfl
              cacheOK := ?_
              cacheMono := ?_
              cacheAdd := ?_
              cacheNew := ?_
              qSpec := ?_
              sound := ?_
              closure := ?_
              selfMem := hselfMem
              headNew := fun _ => ⟨new_l, rfl⟩ }
          · intro x hx
            rcases List.mem_cons.mp hx with rfl | hx
            · exact hseen
            · intro hxs
              exact (pl.freshNew x hx) (List.mem_append_left _ hxs)
          · intro g dg hg
            dsimp only at hg
            cases hsg : alookup st₂.cache g with
            | some v =>
              rw [alookup_append_some _ _ _ _ hsg] at hg
              injection hg with hg2
              rw [← hg2]
              exact pl.cacheOK g v hsg
            | none =>
              rw [alookup_append_none _ _ _ hsg, alookup_singleton] at hg
              by_cases hfg : f = g
              · subst hfg
                rw [if_pos rfl] at hg
                injection hg with hg2
                exact hg2.symm
              · rw [if_neg hfg] at hg
                exact absurd hg (by simp)
          · intro g hg
            have h6 := pl.cacheMono g hg
            rcases Option.isSome_iff_exists.mp h6 with ⟨v, hv⟩
            dsimp only
            rw [alookup_append_some _ _ _ _ hv]
            rfl
          · intro g hg
            dsimp only at hg
            cases hsg : alookup st₂.cache g with
            | some v =>
              rcases pl.cacheAdd g (by rw [hsg]; rfl) with h6 | h6
              · exact Or.inl h6
              · exact Or.inr (List.mem_cons_of_mem _ h6)
            | none =>
              rw [alookup_append_none _ _ _ hsg, alookup_singleton] at hg
              by_cases hfg : f = g
              · subst hfg
                exact Or.inr (List.mem_cons_self _ _)
              · rw [if_neg hfg] at hg
                exact absurd hg (by simp)
          · intro g hg
            dsimp only
            rcases List.mem_cons.mp hg with rfl | hg
            · rw [alookup_append_none _ _ _ hcf, alookup_singleton, if_pos rfl]
              rfl
            · rcases Option.isSome_iff_exists.mp (pl.cacheNew g hg) with ⟨v, hv⟩
              rw [alookup_append_some _ _ _ _ hv]
              rfl
          · rcases pl.qSpec with ⟨qnew, hq, hn, hi⟩
            refine ⟨qnew ++ [f], ?_, ?_, ?_⟩
            · dsimp only
              rw [hq, List.append_assoc]
            · rw [List.nodup_append]
              refine ⟨hn, List.nodup_singleton f, ?_⟩
              intro x h6 h7
              rw [List.mem_singleton.mp h7] at h6
              exact hfnot ((hi f).mp h6).1
            · intro q
              rw [List.mem_append, hi q, List.mem_singleton, List.mem_cons]
              constructor
              · rintro (⟨h6, h7⟩ | rfl)
                · exact ⟨Or.inr h6, h7⟩
                · exact ⟨Or.inl rfl, hnotcachedf⟩
              · rintro ⟨rfl | h6, h7⟩
                · exact Or.inr rfl
                · exact Or.inl ⟨h6, h7⟩
          · intro x hx
            rcases List.mem_cons.mp hx with rfl | hx
            · exact Relation.ReflTransGen.refl
            · rcases pl.sound x hx with ⟨c, hc, hreach⟩
              exact Relation.ReflTransGen.head hc hreach
          · intro x hx c hc
            rcases List.mem_cons.mp hx with rfl | hx
            · exact pl.allMem c hc
            · exact pl.closure x hx c hc

theorem gadList_seen_det {D : Type}
    (step : String → List String → DState D → Option (List D × List String × DState D))
    (hdet : ∀ f seen (st t : DState D) ds seen₁ st' es seen₂ t',
      step f seen st = some (ds, seen₁, st') → step f seen t = some (es, seen₂, t') →
      seen₂ = seen₁) :
    ∀ l seen (st t : DState D) ds seen₁ st' es seen₂ t',
      gadList step l seen st = some (ds, seen₁, st') →
      gadList step l seen t = some (es, seen₂, t') → seen₂ = seen₁ := by
  intro l
  induction l with
  | nil =>
    intro seen st t ds seen₁ st' es seen₂ t' h1 h2
    rw [gadList] at h1 h2
    have e1 : seen = seen₁ := congrArg (fun p => p.2.1) (Option.some.inj h1)
    have e2 : seen = seen₂ := congrArg (fun p => p.2.1) (Option.some.inj h2)
    rw [← e1, ← e2]
  | cons d rest ih =>
    intro seen st t ds seen₁ st' es seen₂ t' h1 h2
    rw [gadList] at h1 h2
    cases hs1 : step d seen st with
    | none => rw [hs1] at h1; exact absurd h1 (by simp)
    | some r1 =>
      obtain ⟨dd1, sa, sta⟩ := r1
      rw [hs1] at h1
      dsimp only at h1
      cases hs2 : step d seen t with
      | none => rw [hs2] at h2; exact absurd h2 (by simp)
      | some r2 =>
        obtain ⟨dd2, sb, stb⟩ := r2
        rw [hs2] at h2
        dsimp only at h2
        have hsab : sb = sa := hdet d seen st t dd1 sa sta dd2 sb stb hs1 hs2
        rw [hsab] at h2
        cases hr1 : gadList step rest sa sta with
        | none => rw [hr1] at h1; exact absurd h1 (by simp)
        | some r1' =>
          obtain ⟨dd1', sc, stc⟩ := r1'
          rw [hr1] at h1
          dsimp only at h1
          cases hr2 : gadList step rest sa stb with
          | none => rw [hr2] at h2; exact absurd h2 (by simp)
          | some r2' =>
            obtain ⟨dd2', sd, std⟩ := r2'
            rw [hr2] at h2
            dsimp only at h2
            have e1 : sc = seen₁ := congrArg (fun p => p.2.1) (Option.some.inj h1)
            have e2 : sd = seen₂ := congrArg (fun p => p.2.1) (Option.some.inj h2)
            rw [← e1, ← e2]
            exact ih sa sta stb dd1' sc stc dd2' sd std hr1 hr2

/-- The visit order of `getAllDiagnostics` does not depend on the memo state. -/
theorem gadF_seen_det {D : Type} (env : DiagEnv D) :
    ∀ fuel f seen (st t : DState D) ds seen₁ st' es seen₂ t',
      gadF env fuel f seen st = some (ds, seen₁, st') →
      gadF env fuel f seen t = some (es, seen₂, t') → seen₂ = seen₁ := by
  intro fuel
  induction fuel with
  | zero => intro f seen st t ds s1 st' es s2 t' h1 _; exact absurd h1 (by simp [gadF])
  | succ fuel ih =>
    intro f seen st t ds s1 st' es s2 t' h1 h2
    rw [gadF] at h1 h2
    by_cases hseen : f ∈ seen
    · rw [if_pos hseen] at h1 h2
      have e1 : seen = s1 := congrArg (fun p => p.2.1) (Option.some.inj h1)
      have e2 : seen = s2 := congrArg (fun p => p.2.1) (Option.some.inj h2)
      rw [← e1, ← e2]
    · rw [if_neg hseen] at h1 h2
      cases hr1 : gadList (gadF env fuel) (declDeps env f) (seen ++ [f]) st with
      | none => rw [hr1] at h1; exact absurd h1 (by simp)
      | some r1 =>
        obtain ⟨dd1, sa, sta⟩ := r1
        rw [hr1] at h1
        dsimp only at h1
        cases hr2 : gadList (gadF env fuel) (declDeps env f) (seen ++ [f]) t with
        | none => rw [hr2] at h2; exact absurd h2 (by simp)
        | some r2 =>
          obtain ⟨dd2, sb, stb⟩ := r2
          rw [hr2] at h2
          dsimp only at h2
          have hd : sb = sa := gadList_seen_det (gadF env fuel) ih _ _ _ _ _ _ _ _ _ _ hr1 hr2
          have e1 : sa = s1 := congrArg (fun p => p.2.1) (Option.some.inj h1)
          have e2 : sb = s2 := congrArg (fun p => p.2.1) (Option.some.inj h2)
          rw [← e1, ← e2, hd]

/- ## C7: declaration-only transitive diagnostics -/

/-- C7: `getAllDiagnostics(U)` returns U's diagnostics concatenated with
those of exactly the units reachable from U through declaration-only
dependency edges — ordinary dependencies are never recursed into (only
`deps.filter(isTypescriptDeclaration)` is) — and each visited unit
contributes its diagnostics at most once per request. -/
theorem getAllDiagnostics_decl_closure {D : Type} (env : DiagEnv D)
    (fuel : Nat) (u : String) (st : DState D) (ds : List D) (seen' : List String)
    (st' : DState D)
    (hC : ∀ g d, alookup st.cache g = some d → d = bdiag env g)
    (h : gadF env fuel u [] st = some (ds, seen', st')) :
    ∃ rest, seen' = u :: rest ∧ (u :: rest).Nodup ∧
      ds = bdiag env u ++ (rest.map (bdiag env)).flatten ∧
      (∀ v, v ∈ u :: rest ↔ DeclReach env u v) := by
  obtain ⟨new, p⟩ := gadF_post env fuel u [] st ds seen' st' hC h
  obtain ⟨rest, hrest⟩ := p.headNew (List.not_mem_nil u)
  subst hrest
  have hseen : seen' = u :: rest := by
    rw [p.seenEq]
    rfl
  refine ⟨rest, hseen, p.nodupNew, ?_, ?_⟩
  · rw [p.dsEq]
    rfl
  · intro v
    constructor
    · intro hv
      exact p.sound v hv
    · intro hv
      induction hv with
      | refl => exact List.mem_cons_self _ _
      | tail _ hbc ihv =>
        have := p.closure _ ihv _ hbc
        rw [hseen] at this
        exact this

/-- C7 (witness): from `a` with declaration dependency `lib.d.ts` and
ordinary dependency `b`, the walk covers exactly `a` and `lib.d.ts`. -/
theorem getAllDiagnostics_decl_closure_witness :
    ∃ rest, (["a", "lib.d.ts"] : List String) = "a" :: rest ∧ ("a" :: rest).Nodup ∧
      ([1, 2] : List Nat) = bdiag wDeclEnv "a" ++ (rest.map (bdiag wDeclEnv)).flatten ∧
      (∀ v, v ∈ "a" :: rest ↔ DeclReach wDeclEnv "a" v) :=
  getAllDiagnostics_decl_closure wDeclEnv 3 "a" initD [1, 2] ["a", "lib.d.ts"]
    ⟨[("lib.d.ts", [2]), ("a", [1])], ["lib.d.ts", "a"]⟩
    (by intro g d hg; exact absurd hg (by simp [initD, alookup]))
    (by decide)

/- ## C8: diagnostics memoization -/

/-- C8: running the diagnostics accumulation twice from the session start
returns identical results, the second run issues no language-service queries
at all (every unit is a cache hit), and across both runs each unit is queried
at most once. -/
theorem getAllDiagnostics_memoized {D : Type} (env : DiagEnv D) (fuel : Nat) (u : String)
    (ds₁ ds₂ : List D) (sn₁ sn₂ : List String) (st₁ st₂ : DState D)
    (h1 : gadF env fuel u [] initD = some (ds₁, sn₁, st₁))
    (h2 : gadF env fuel u [] st₁ = some (ds₂, sn₂, st₂)) :
    ds₂ = ds₁ ∧ st₂.queried = st₁.queried ∧ (∀ g, st₂.queried.count g ≤ 1) := by
  have hC0 : ∀ g d, alookup (initD : DState D).cache g = some d → d = bdiag env g := by
    intro g d hg
    exact absurd hg (by simp [initD, alookup])
  obtain ⟨new₁, p₁⟩ := gadF_post env fuel u [] initD ds₁ sn₁ st₁ hC0 h1
  obtain ⟨new₂, p₂⟩ := gadF_post env fuel u [] st₁ ds₂ sn₂ st₂ p₁.cacheOK h2
  have hsn : sn₂ = sn₁ := gadF_seen_det env fuel u [] initD st₁ ds₁ sn₁ st₁ ds₂ sn₂ st₂ h1 h2
  have hnew : new₂ = new₁ := by
    have e1 : sn₁ = new₁ := by rw [p₁.seenEq]; rfl
    have e2 : sn₂ = new₂ := by rw [p₂.seenEq]; rfl
    rw [← e1, ← e2, hsn]
  have hqeq : st₂.queried = st₁.queried := by
    rcases p₂.qSpec with ⟨q₂, hq₂, _, hi₂⟩
    have hq2nil : q₂ = [] := by
      rw [List.eq_nil_iff_forall_not_mem]
      intro q hq
      have h6 := (hi₂ q).mp hq
      refine h6.2 (p₁.cacheNew q ?_)
      rw [← hnew]
      exact h6.1
    rw [hq₂, hq2nil, List.append_nil]
  refine ⟨by rw [p₁.dsEq, p₂.dsEq, hnew], hqeq, ?_⟩
  intro g
  rcases p₁.qSpec with ⟨q₁, hq₁, hn₁, _⟩
  rw [hqeq, hq₁]
  simpa [initD] using List.nodup_iff_count_le_one.mp hn₁ g

/-- C8 (witness): the second run over the memoized state returns the same
diagnostics with no further queries. -/
theorem getAllDiagnostics_memoized_witness :
    ([1, 2] : List Nat) = [1, 2] ∧
      (⟨[("lib.d.ts", [2]), ("a", [1])], ["lib.d.ts", "a"]⟩ : DState Nat).queried =
        (⟨[("lib.d.ts", [2]), ("a", [1])], ["lib.d.ts", "a"]⟩ : DState Nat).queried ∧
      (∀ g, ((⟨[("lib.d.ts", [2]), ("a", [1])], ["lib.d.ts", "a"]⟩ : DState Nat)).queried.count g
        ≤ 1) :=
  getAllDiagnostics_memoized wDeclEnv 3 "a" [1, 2] [1, 2] ["a", "lib.d.ts"] ["a", "lib.d.ts"]
    ⟨[("lib.d.ts", [2]), ("a", [1])], ["lib.d.ts", "a"]⟩
    ⟨[("lib.d.ts", [2]), ("a", [1])], ["lib.d.ts", "a"]⟩
    (by decide) (by decide)

/- ## C5 and C6: the emit strategy -/

/-- C5: a unit with at least one diagnostic — on itself or on a unit
reachable through declaration-only dependencies — makes
`getCompilationResults` return, on the ordinary (non-thrown) path,
`failure: true` with a non-empty `errors` list and `undefined` `js`/`map`,
without ever invoking the backend's emit. -/
theorem emit_short_circuits_on_diagnostics {D : Type} (denv : DiagEnv D) (eenv : EmitEnv D)
    (fuel : Nat) (u v : String) (st st₁ : DState D) (ds : List D) (sn : List String)
    (hC : ∀ g d, alookup st.cache g = some d → d = bdiag denv g)
    (hgad : gadF denv fuel u [] st = some (ds, sn, st₁))
    (hv : DeclReach denv u v) (hnz : bdiag denv v ≠ []) :
    getCompilationResults denv eenv fuel u st =
      some (Except.ok { failure := true, errors := ds ++ eenv.optDiags,
                        js := none, map := none }, false, st₁) ∧
      ds ++ eenv.optDiags ≠ [] := by
  obtain ⟨rest, hsn, hnodup, hds, hmem⟩ :=
    getAllDiagnostics_decl_closure denv fuel u st ds sn st₁ hC hgad
  have hdsne : ds ≠ [] := by
    have hvmem : v ∈ u :: rest := (hmem v).mpr hv
    have hflat : ds = ((u :: rest).map (bdiag denv)).flatten := by
      rw [hds]
      rfl
    intro hnil
    rw [hnil] at hflat
    have hall := (List.flatten_eq_nil_iff.mp hflat.symm) (bdiag denv v)
      (List.mem_map_of_mem _ hvmem)
    exact hnz hall
  have hne : ds ++ eenv.optDiags ≠ [] := by
    intro hnil
    rcases List.append_eq_nil.mp hnil with ⟨h1, _⟩
    exact hdsne h1
  have hlen : ¬((ds ++ eenv.optDiags).length = 0) := by
    intro hc
    exact hne (List.length_eq_zero.mp hc)
  refine ⟨?_, hne⟩
  unfold getCompilationResults
  rw [hgad]
  dsimp only
  rw [if_neg hlen]

/-- C5 (witness): unit `a` carries diagnostic `1`, so emit short-circuits
with `failure: true` and no emit call. -/
theorem emit_short_circuits_on_diagnostics_witness :
    getCompilationResults wDeclEnv wEmitEnv 3 "a" initD =
      some (Except.ok { failure := true, errors := [1, 2] ++ wEmitEnv.optDiags,
                        js := none, map := none }, false,
        ⟨[("lib.d.ts", [2]), ("a", [1])], ["lib.d.ts", "a"]⟩) ∧
      ([1, 2] : List Nat) ++ wEmitEnv.optDiags ≠ [] :=
  emit_short_circuits_on_diagnostics wDeclEnv wEmitEnv 3 "a" "a" initD
    ⟨[("lib.d.ts", [2]), ("a", [1])], ["lib.d.ts", "a"]⟩ [1, 2] ["a", "lib.d.ts"]
    (by intro g d hg; exact absurd hg (by simp [initD, alookup]))
    (by decide) Relation.ReflTransGen.refl (by decide)

/-- C6: a unit with zero diagnostics makes `getCompilationResults` return
`failure: false` with the emitted map text and the emitted code whose
source-map-file reference comment has been replaced by the comment spliced
from the generated map; under the collaborators' contracts (`convert`'s
comment replacement removes the reference and preserves non-emptiness) the
returned `js` and `map` are non-empty and no unresolved map reference
remains. -/
theorem emit_success_splices_map {D : Type} (denv : DiagEnv D) (eenv : EmitEnv D)
    (hasMapRef : String → Bool) (fuel : Nat) (u : String) (st st₁ : DState D)
    (ds : List D) (sn : List String) (jstext maptext : String)
    (hgad : gadF denv fuel u [] st = some (ds, sn, st₁))
    (hzero : ds = []) (hopt : eenv.optDiags = [])
    (hstatus : (eenv.getEmitOutput (denv.normF ("/" ++ u))).emitOutputStatus = 0)
    (hjs : ((eenv.getEmitOutput (denv.normF ("/" ++ u))).outputFiles.filter
        (fun p => p.1 == eenv.tsToJs (denv.normF ("/" ++ u)))).head? =
      some (eenv.tsToJs (denv.normF ("/" ++ u)), jstext))
    (hmap : ((eenv.getEmitOutput (denv.normF ("/" ++ u))).outputFiles.filter
        (fun p => p.1 == eenv.tsToJsMap (denv.normF ("/" ++ u)))).head? =
      some (eenv.tsToJsMap (denv.normF ("/" ++ u)), maptext))
    (hjsne : jstext ≠ "") (hmapne : maptext ≠ "")
    (hsplice : ∀ s r, s ≠ "" → eenv.spliceMapComment s r ≠ "")
    (hnoref : ∀ s r, hasMapRef (eenv.spliceMapComment s r) = false) :
    getCompilationResults denv eenv fuel u st =
      some (Except.ok { failure := false, errors := [],
                        js := some (eenv.spliceMapComment jstext (eenv.toCommentOf maptext)),
                        map := some maptext }, true, st₁) ∧
      eenv.spliceMapComment jstext (eenv.toCommentOf maptext) ≠ "" ∧
      maptext ≠ "" ∧
      hasMapRef (eenv.spliceMapComment jstext (eenv.toCommentOf maptext)) = false := by
  refine ⟨?_, hsplice jstext _ hjsne, hmapne, hnoref jstext _⟩
  unfold getCompilationResults
  rw [hgad]
  dsimp only
  rw [hzero, hopt]
  split
  · split
    · rename _ ≠ 0 => hbad
      exact absurd hstatus hbad
    · rw [hjs, hmap]
  · rename ¬_ => hlen
    exact absurd rfl hlen

/-- C6 (witness): a diagnostics-free unit emits successfully with the map
spliced in. -/
theorem emit_success_splices_map_witness :
    getCompilationResults wDiagEnv wEmitEnv2 1 "u" initD =
      some (Except.ok { failure := false, errors := [],
                        js := some (wEmitEnv2.spliceMapComment "JS" (wEmitEnv2.toCommentOf "MAP")),
                        map := some "MAP" }, true, ⟨[("u", [])], ["u"]⟩) ∧
      wEmitEnv2.spliceMapComment "JS" (wEmitEnv2.toCommentOf "MAP") ≠ "" ∧
      ("MAP" : String) ≠ "" ∧
      (fun _ => false : String → Bool)
          (wEmitEnv2.spliceMapComment "JS" (wEmitEnv2.toCommentOf "MAP")) = false :=
  emit_success_splices_map wDiagEnv wEmitEnv2 (fun _ => false) 1 "u" initD
    ⟨[("u", [])], ["u"]⟩ [] ["u"] "JS" "MAP"
    (by decide) rfl rfl (by decide) (by decide) (by decide)
    (by decide) (by decide)
    (fun s r h => h) (fun _ _ => rfl)

/- ## C10: the whole-program check skips the default library -/

/-- Characterization of the `reduce` at part_001 lines 190-202: the fold
queries exactly the units that are neither flagged as default library nor
already checked, marks them checked, and appends their syntactic-then-semantic
diagnostics in order. -/
theorem tcFold_spec {D : Type} (env : TCDiagEnv D) :
    ∀ (l : List TCDep) (acc : TCAcc D), ∃ qnew : List String,
      l.foldl (tcStep env) acc =
        { diags := acc.diags ++ (qnew.map (fun n => env.synD n ++ env.semD n)).flatten,
          checked := acc.checked ++ qnew,
          queried := acc.queried ++ qnew } ∧
      qnew.Nodup ∧ (∀ q ∈ qnew, q ∉ acc.checked) ∧
      (∀ q, q ∈ qnew ↔ ∃ d ∈ l, d.sourceName = q ∧ d.isDefaultLib = false ∧
        q ∉ acc.checked) := by
  intro l
  induction l with
  | nil =>
    intro acc
    refine ⟨[], ?_, List.nodup_nil, by simp, by simp⟩
    simp
  | cons d rest ih =>
    intro acc
    rw [List.foldl_cons]
    by_cases hcond : (!d.isDefaultLib && !(decide (d.sourceName ∈ acc.checked))) = true
    · have hparts : d.isDefaultLib = false ∧ d.sourceName ∉ acc.checked := by
        simpa using hcond
      have hstep : tcStep env acc d =
          { diags := acc.diags ++ env.synD d.sourceName ++ env.semD d.sourceName,
            checked := acc.checked ++ [d.sourceName],
            queried := acc.queried ++ [d.sourceName] } := by
        unfold tcStep
        rw [if_pos hcond]
      rw [hstep]
      obtain ⟨q₂, heq, hnodup, hfresh, hiff⟩ := ih
        { diags := acc.diags ++ env.synD d.sourceName ++ env.semD d.sourceName,
          checked := acc.checked ++ [d.sourceName],
          queried := acc.queried ++ [d.sourceName] }
      have hnameq₂ : d.sourceName ∉ q₂ := by
        intro hm
        exact hfresh d.sourceName hm
          (by exact List.mem_append_right _ (List.mem_singleton_self _))
      refine ⟨d.sourceName :: q₂, ?_, List.nodup_cons.mpr ⟨hnameq₂, hnodup⟩, ?_, ?_⟩
      · rw [heq]
        congr 1 <;> simp [List.append_assoc]
      · intro q hq
        rcases List.mem_cons.mp hq with rfl | hq
        · exact hparts.2
        · intro hqc
          exact hfresh q hq (List.mem_append_left _ hqc)
      · intro q
        constructor
        · intro hq
          rcases List.mem_cons.mp hq with rfl | hq
          · exact ⟨d, List.mem_cons_self _ _, rfl, hparts.1, hparts.2⟩
          · rcases (hiff q).mp hq with ⟨d', hd', hname, hdef, hnc⟩
            refine ⟨d', List.mem_cons_of_mem _ hd', hname, hdef, ?_⟩
            intro hqc
            exact hnc (List.mem_append_left _ hqc)
        · rintro ⟨d', hd', rfl, hdef, hnc⟩
          rcases List.mem_cons.mp hd' with rfl | hd'
          · exact List.mem_cons_self _ _
          · by_cases hqn : d'.sourceName = d.sourceName
            · rw [hqn]
              exact List.mem_cons_self _ _
            · refine List.mem_cons_of_mem _ ((hiff d'.sourceName).mpr ⟨d', hd', rfl, hdef, ?_⟩)
              intro hqc
              rcases List.mem_append.mp hqc with h6 | h6
              · exact hnc h6
              · exact hqn (List.mem_singleton.mp h6)
    · have hstep : tcStep env acc d = acc := by
        unfold tcStep
        rw [if_neg hcond]
      rw [hstep]
      obtain ⟨q₂, heq, hnodup, hfresh, hiff⟩ := ih acc
      refine ⟨q₂, heq, hnodup, hfresh, ?_⟩
      intro q
      rw [hiff q]
      constructor
      · rintro ⟨d', hd', hname, hdef, hnc⟩
        exact ⟨d', List.mem_cons_of_mem _ hd', hname, hdef, hnc⟩
      · rintro ⟨d', hd', rfl, hdef, hnc⟩
        rcases List.mem_cons.mp hd' with rfl | hd'
        · exfalso
          have : (!d'.isDefaultLib && !(decide (d'.sourceName ∈ acc.checked))) = true := by
            simp [hdef, hnc]
          exact hcond this
        · exact ⟨d', hd', rfl, hdef, hnc⟩

/-- C10: in `TypeChecker.getAllDiagnostics`, the default-library unit is
included in the program built from the flattened closure but is never passed
to the per-file diagnostic queries and contributes no diagnostics; units
already marked checked by an earlier request, and the synthetic HTML
placeholder, are excluded the same way; the returned diagnostics are the
global ones followed by exactly the queried units' syntactic-then-semantic
diagnostics. -/
theorem whole_program_check_skips_default_lib {D : Type} (env : TCDiagEnv D)
    (deps : List TCDep) (checked : List String) (dl : TCDep)
    (hdl : dl ∈ deps) (hdef : dl.isDefaultLib = true)
    (hnames : (deps.map (·.sourceName)).Nodup) :
    dl.sourceName ∈ (tcGetAllDiagnostics env deps checked).2 ∧
      dl.sourceName ∉ (tcGetAllDiagnostics env deps checked).1.queried ∧
      (∀ d ∈ deps, d.sourceName ∈ checked →
        d.sourceName ∉ (tcGetAllDiagnostics env deps checked).1.queried) ∧
      env.htmlName ∉ (tcGetAllDiagnostics env deps checked).1.queried ∧
      (tcGetAllDiagnostics env deps checked).1.diags =
        env.globalD ++ (((tcGetAllDiagnostics env deps checked).1.queried).map
          (fun n => env.synD n ++ env.semD n)).flatten := by
  obtain ⟨qnew, heq, _, _, hiff⟩ := tcFold_spec env
    (deps ++ [(⟨env.htmlName, false⟩ : TCDep)])
    ⟨env.globalD, checked ++ [env.htmlName], []⟩
  have hres : tcGetAllDiagnostics env deps checked =
      ((deps ++ [(⟨env.htmlName, false⟩ : TCDep)]).foldl (tcStep env)
        ⟨env.globalD, checked ++ [env.htmlName], []⟩,
       (deps ++ [(⟨env.htmlName, false⟩ : TCDep)]).map (·.sourceName)) :=
    rfl
  have hqmem : ∀ q, q ∈ qnew ↔ ∃ d ∈ deps ++ [(⟨env.htmlName, false⟩ : TCDep)],
      d.sourceName = q ∧ d.isDefaultLib = false ∧ q ∉ checked ++ [env.htmlName] := hiff
  refine ⟨?_, ?_, ?_, ?_, ?_⟩
  · rw [hres]
    dsimp only
    rw [List.map_append]
    exact List.mem_append_left _ (List.mem_map_of_mem _ hdl)
  · rw [hres, heq]
    dsimp only
    rw [List.nil_append]
    intro hq
    rcases (hqmem _).mp hq with ⟨d', hd', hname, hdfalse, hnc⟩
    rcases List.mem_append.mp hd' with hd' | hd'
    · have hde : d' = dl := List.inj_on_of_nodup_map hnames hd' hdl hname
      rw [hde] at hdfalse
      rw [hdef] at hdfalse
      exact absurd hdfalse (by simp)
    · rw [List.mem_singleton.mp hd'] at hname
      exact hnc (by rw [← hname]; exact List.mem_append_right _ (List.mem_singleton_self _))
  · intro d hd hdc
    rw [hres, heq]
    dsimp only
    rw [List.nil_append]
    intro hq
    rcases (hqmem _).mp hq with ⟨d', _, _, _, hnc⟩
    exact hnc (List.mem_append_left _ hdc)
  · rw [hres, heq]
    dsimp only
    rw [List.nil_append]
    intro hq
    rcases (hqmem _).mp hq with ⟨d', _, _, _, hnc⟩
    exact hnc (List.mem_append_right _ (List.mem_singleton_self _))
  · rw [hres, heq]
    simp

/-- C10 (witness): a closure holding the default library, a fresh module and
an already-checked module. -/
theorem whole_program_check_skips_default_lib_witness :
    ("lib" : String) ∈ (tcGetAllDiagnostics wTCEnv
        [⟨"lib", true⟩, ⟨"m", false⟩, ⟨"old", false⟩] ["old"]).2 ∧
      ("lib" : String) ∉ (tcGetAllDiagnostics wTCEnv
        [⟨"lib", true⟩, ⟨"m", false⟩, ⟨"old", false⟩] ["old"]).1.queried ∧
      (∀ d ∈ ([⟨"lib", true⟩, ⟨"m", false⟩, ⟨"old", false⟩] : List TCDep),
        d.sourceName ∈ ["old"] →
          d.sourceName ∉ (tcGetAllDiagnostics wTCEnv
            [⟨"lib", true⟩, ⟨"m", false⟩, ⟨"old", false⟩] ["old"]).1.queried) ∧
      wTCEnv.htmlName ∉ (tcGetAllDiagnostics wTCEnv
        [⟨"lib", true⟩, ⟨"m", false⟩, ⟨"old", false⟩] ["old"]).1.queried ∧
      (tcGetAllDiagnostics wTCEnv
          [⟨"lib", true⟩, ⟨"m", false⟩, ⟨"old", false⟩] ["old"]).1.diags =
        wTCEnv.globalD ++ (((tcGetAllDiagnostics wTCEnv
          [⟨"lib", true⟩, ⟨"m", false⟩, ⟨"old", false⟩] ["old"]).1.queried).map
            (fun n => wTCEnv.synD n ++ wTCEnv.semD n)).flatten :=
  whole_program_check_skips_default_lib wTCEnv
    [⟨"lib", true⟩, ⟨"m", false⟩, ⟨"old", false⟩] ["old"] ⟨"lib", true⟩
    (by decide) rfl (by decide)

end PTS
